import Mathlib

/-!
A shallow embedding of `src/optimization_utils.py` (repository
`run_your_pool_optimization`) together with proofs of the specification
claims about it.

Modelling conventions:
* Python `dict`s are association lists (`List (key × value)`) in insertion
  order; `dict.get` is `dictGet` (first binding of the key).
* Python floats are modelled as rationals (`ℚ`); `np.random.binomial(n=1, p)`
  is modelled by an injected stream `randFn : ℕ → ℚ` of uniform draws in
  `[0, 1)` together with a running index: the sample is `1` exactly when
  `randFn idx < p`.
* Fallible code returns `Except`: Python exceptions become `SimError` /
  `ClipError` values.
-/

namespace RunYourPool

set_option maxRecDepth 40000
set_option maxHeartbeats 4000000

/-- A round descriptor in the seed path dictionary: either a single fixed
round-1 opponent seed (a Python `int`) or a tuple of candidate opponent
seeds. -/
inductive Desc where
  | single : ℕ → Desc
  | cands : List ℕ → Desc
deriving DecidableEq, Repr

/-- Python `dict.get key`: the binding of the first matching key, if any
(keys of a Python dict are unique; the list keeps insertion order). -/
def dictGet {α : Type} : List (ℕ × α) → ℕ → Option α
  | [], _ => none
  | kv :: rest, k => if kv.1 = k then some kv.2 else dictGet rest k

/-- Errors raised by the simulator (Python `ValueError` for a missing matchup
probability, `UnboundLocalError` when no tuple candidate is alive,
`IndexError` for popping an empty path, `KeyError` for a points update on an
unknown seed). -/
inductive SimError where
  | missingProb : ℕ → ℕ → SimError
  | unboundOpponent : ℕ → SimError
  | emptyPath : ℕ → SimError
  | keyError : ℕ → SimError
deriving DecidableEq, Repr

/-- `win_probability_dictionary`: seed → (opponent seed → probability). -/
abbrev WinProbTable := List (ℕ × List (ℕ × ℚ))

/-- Lines 84–97 of `extract_win_probability_by_seed`: the branch taken when
the probability was not found under `current_seed`; probe the opponent's
dictionary and return the complement `1 - p`, or raise `ValueError` naming
both seeds.  Note that Python's `if not seed_win_prob_dict` treats an *empty*
dictionary like a missing one. -/
def extractFallback (table : WinProbTable) (current_seed matchup_opponent : ℕ) :
    Except SimError ℚ :=
  match dictGet table matchup_opponent with
  | none => .error (.missingProb current_seed matchup_opponent)
  | some d =>
    if d.isEmpty then .error (.missingProb current_seed matchup_opponent)
    else
      match dictGet d current_seed with
      | none => .error (.missingProb current_seed matchup_opponent)
      | some p => .ok (1 - p)

/-- `RegionBracket.extract_win_probability_by_seed` (lines 75–98): look up the
probability that `current_seed` beats `matchup_opponent`, first under
`current_seed`, then (complemented) under `matchup_opponent`. -/
def extract_win_probability_by_seed (table : WinProbTable)
    (current_seed matchup_opponent : ℕ) : Except SimError ℚ :=
  match dictGet table current_seed with
  | none => extractFallback table current_seed matchup_opponent
  | some d =>
    if d.isEmpty then extractFallback table current_seed matchup_opponent
    else
      match dictGet d matchup_opponent with
      | some p => .ok p
      | none => extractFallback table current_seed matchup_opponent

/-- The pair `(a, b)` has an entry in direction `a → b` in the table. -/
def pairPopulated (table : WinProbTable) (a b : ℕ) : Prop :=
  ∃ l p, dictGet table a = some l ∧ dictGet l b = some p

/-- `points_by_seed`: seed → accumulated score. -/
abbrev Points := List (ℕ × ℕ)

/-- `self.points_by_seed[key] += amt`: add `amt` to the binding of `key`;
`none` models Python's `KeyError` when the key is absent. -/
def dictIncr : Points → ℕ → ℕ → Option Points
  | [], _, _ => none
  | kv :: rest, key, amt =>
    if kv.1 = key then some ((kv.1, kv.2 + amt) :: rest)
    else (dictIncr rest key amt).map (fun r => kv :: r)

/-- `current_matchup_state`: currently occupying seed → remaining round
descriptors of its slot, in insertion order. -/
abbrev MatchupState := List (ℕ × List Desc)

/-- The loop-carried state of one execution of
`simulate_round_and_update_current_state`: the next-round matchup state being
built, the visited set (kept as a list in insertion order), the points
dictionary, the Python-local variable `current_opponent` (which persists
between loop iterations), and the index of the next random draw. -/
structure RoundState where
  updated_matchup_state : MatchupState
  visited : List ℕ
  points_by_seed : Points
  current_opponent : Option ℕ
  rand_index : ℕ
deriving DecidableEq, Repr

/-- One iteration of the `for seed, matchup_path in ...` loop body of
`simulate_round_and_update_current_state` (lines 45–71): skip a visited seed;
otherwise pop the head descriptor, resolve the opponent (a fixed seed, or the
first tuple candidate present among the keys of the round's starting state
`orig`), draw the Bernoulli outcome, score the winner, and map the winner to
the popped-from path. -/
def processEntry (table : WinProbTable) (randFn : ℕ → ℚ) (orig : MatchupState)
    (st : RoundState) (entry : ℕ × List Desc) : Except SimError RoundState :=
  if entry.1 ∈ st.visited then .ok st
  else
    match entry.2 with
    | [] => .error (.emptyPath entry.1)
    | next_opponent :: matchup_path =>
      let found : Option ℕ × List ℕ :=
        match next_opponent with
        | .single o => (some o, st.visited)
        | .cands cs =>
          match cs.find? (fun c => (dictGet orig c).isSome) with
          | some c => (some c, st.visited ++ [c])
          | none => (st.current_opponent, st.visited)
      match found.1 with
      | none => .error (.unboundOpponent entry.1)
      | some opp =>
        match extract_win_probability_by_seed table entry.1 opp with
        | .error e => .error e
        | .ok p =>
          let winning_seed := if randFn st.rand_index < p then entry.1 else opp
          match dictIncr st.points_by_seed winning_seed winning_seed with
          | none => .error (.keyError winning_seed)
          | some pts =>
            .ok { updated_matchup_state :=
                    st.updated_matchup_state ++ [(winning_seed, matchup_path)]
                  visited := found.2
                  points_by_seed := pts
                  current_opponent := some opp
                  rand_index := st.rand_index + 1 }

/-- `RegionBracket.simulate_round_and_update_current_state` (lines 39–73):
fold the loop body over the entries of the current matchup state and replace
the state with the freshly built one.  Returns the new matchup state, the new
points dictionary and the number of random draws consumed so far. -/
def simulate_round_and_update_current_state (table : WinProbTable)
    (randFn : ℕ → ℚ) (current_matchup_state : MatchupState)
    (points_by_seed : Points) (randIdx : ℕ) :
    Except SimError (MatchupState × Points × ℕ) :=
  (current_matchup_state.foldlM (processEntry table randFn current_matchup_state)
      ⟨[], [], points_by_seed, none, randIdx⟩).map
    (fun st => (st.updated_matchup_state, st.points_by_seed, st.rand_index))

/-- `n` successive rounds (`for _ in range(n)`), threading state, points and
the random index. -/
def simulateRounds (table : WinProbTable) (randFn : ℕ → ℚ) :
    ℕ → MatchupState → Points → ℕ → Except SimError (MatchupState × Points × ℕ)
  | 0, st, pts, idx => .ok (st, pts, idx)
  | n + 1, st, pts, idx => do
    let r ← simulate_round_and_update_current_state table randFn st pts idx
    simulateRounds table randFn n r.1 r.2.1 r.2.2

/-- `__post_init__` line 30: `{n + 1: 0 for n in range(16)}`. -/
def initial_points_by_seed : Points := (List.range 16).map (fun n => (n + 1, 0))

/-- `RegionBracket.simulate_region_tournament` on a fresh instance: the
matchup state starts as a (deep copy of the) seed path dictionary, the points
dictionary starts at zero for seeds 1–16, and 4 rounds are run. -/
def simulate_region_tournament (table : WinProbTable) (randFn : ℕ → ℚ)
    (seed_path_dictionary : MatchupState) :
    Except SimError (MatchupState × Points × ℕ) :=
  simulateRounds table randFn 4 seed_path_dictionary initial_points_by_seed 0

/-- `SEED_PATH_DICTIONARY` (lines 9–18). -/
def SEED_PATH_DICTIONARY : MatchupState :=
  [(1, [.single 16, .cands [8, 9], .cands [4, 5, 12, 13],
        .cands [2, 3, 6, 7, 10, 11, 14, 15]]),
   (2, [.single 15, .cands [7, 10], .cands [3, 6, 11, 14],
        .cands [1, 4, 5, 8, 9, 12, 13, 16]]),
   (3, [.single 14, .cands [6, 11], .cands [2, 7, 10, 15],
        .cands [1, 4, 5, 8, 9, 12, 13, 16]]),
   (4, [.single 13, .cands [5, 12], .cands [1, 8, 9, 16],
        .cands [2, 3, 6, 7, 10, 11, 14, 15]]),
   (5, [.single 12, .cands [4, 13], .cands [1, 8, 9, 16],
        .cands [2, 3, 6, 7, 10, 11, 14, 15]]),
   (6, [.single 11, .cands [3, 14], .cands [2, 7, 10, 15],
        .cands [1, 4, 5, 8, 9, 12, 13, 16]]),
   (7, [.single 10, .cands [2, 15], .cands [3, 6, 11, 14],
        .cands [1, 4, 5, 8, 9, 12, 13, 16]]),
   (8, [.single 9, .cands [1, 16], .cands [4, 5, 12, 13],
        .cands [2, 3, 6, 7, 10, 11, 14, 15]])]

/-! ### The discretizer -/

/-- The minimum of a list of rationals (value only). -/
def listMin : List ℚ → Option ℚ
  | [] => none
  | x :: xs =>
    match listMin xs with
    | none => some x
    | some m => some (min x m)

/-- The index of the first occurrence of `m` in the list. -/
def firstIdxEq (m : ℚ) : List ℚ → Option ℕ
  | [] => none
  | x :: xs => if x = m then some 0 else (firstIdxEq m xs).map (· + 1)

/-- `np.argmin`: the index of the first occurrence of the minimum of the
array; `none` models the `ValueError` numpy raises on an empty array. -/
def npArgmin (l : List ℚ) : Option ℕ :=
  (listMin l).bind (fun m => firstIdxEq m l)

/-- The error raised when the discretizer's working copy of the search space
is exhausted while inputs remain (numpy's `ValueError` from `np.argmin` on an
empty array). -/
inductive ClipError where
  | exhaustedSearchSpace : ClipError
deriving DecidableEq, Repr

/-- The `for value in continuous_input_arr` loop of
`clip_continuous_inputs_to_discrete_search_space` (lines 113–120): pick the
first nearest member of the working copy, append it to the output, and if
`replace` is false delete it from the working copy. -/
def clipLoop (replace : Bool) :
    List ℚ → List ℤ → List ℤ → Except ClipError (List ℤ)
  | [], _, out => .ok out
  | v :: vs, space, out =>
    match npArgmin (space.map (fun (c : ℤ) => |(c : ℚ) - v|)) with
    | none => .error .exhaustedSearchSpace
    | some i =>
      clipLoop replace vs (if replace then space else space.eraseIdx i)
        (out ++ [space.getD i 0])

/-- `SINGLE_REGION_SEARCH_SPACE` (line 19): the integers 1..16. -/
def SINGLE_REGION_SEARCH_SPACE : List ℤ := (List.range 16).map (fun n => (n : ℤ) + 1)

/-- `clip_continuous_inputs_to_discrete_search_space` (lines 101–121). -/
def clip_continuous_inputs_to_discrete_search_space (continuous_input_arr : List ℚ)
    (discrete_search_space : Option (List ℤ)) (replace : Bool) :
    Except ClipError (List ℤ) :=
  clipLoop replace continuous_input_arr
    (discrete_search_space.getD SINGLE_REGION_SEARCH_SPACE) []

/-- Remove the first occurrence of `c` from the list (the spec's "remove the
selected candidate from the working copy"). -/
def removeFirst (c : ℤ) : List ℤ → List ℤ
  | [] => []
  | x :: xs => if x = c then xs else x :: removeFirst c xs

/-- Modelled from the spec: "select the candidate minimizing absolute distance
to the value; on ties, select the candidate appearing earliest in the current
working copy's order".  The first element of `remaining` whose distance to `v`
is no larger than that of every element. -/
def nearestRemainingSpec (v : ℚ) (remaining : List ℤ) : Option ℤ :=
  remaining.find?
    (fun (c : ℤ) => remaining.all (fun (c2 : ℤ) => decide (|(c : ℚ) - v| ≤ |(c2 : ℚ) - v|)))

/-- Modelled from the spec: the whole discretization in the spec's words, for
`replace = false` — for each input in order take the nearest remaining
candidate (ties to the earliest) and remove it from the working copy. -/
def clipSpec : List ℚ → List ℤ → Option (List ℤ)
  | [], _ => some []
  | v :: vs, remaining =>
    match nearestRemainingSpec v remaining with
    | none => none
    | some c => (clipSpec vs (removeFirst c remaining)).map (fun out => c :: out)

/-- A concrete complete win-probability table used in witnesses: the lower
seed always beats the higher seed with probability 1. -/
def favoritesTable : WinProbTable :=
  (List.range 15).map
    (fun i => (i + 1, (List.range (15 - i)).map (fun j => (i + j + 2, (1 : ℚ)))))

/-! ### A heap model of the simulator for the frame claim (C10)

Python list objects live in a store and the matchup-state dictionaries map
seeds to references into it, so that the `deepcopy` taken at construction
(line 32) and the in-place `matchup_path.pop(0)` (line 48) are explicit heap
operations.  The win-probability table is only ever read: no operation of the
model produces a modified table. -/

/-- A heap of Python list objects, addressed by index. -/
abbrev Store := List (List Desc)

/-- A seed-path dictionary whose values are references into a `Store`. -/
abbrev RefDict := List (ℕ × ℕ)

/-- Read a list object from the store. -/
def storeGet (s : Store) (r : ℕ) : List Desc := s.getD r []

/-- One entry of `copy.deepcopy`: allocate a fresh list object holding a copy
of the referenced contents and bind the seed to the fresh reference. -/
def deepStep (acc : Store × RefDict) (kv : ℕ × ℕ) : Store × RefDict :=
  (acc.1 ++ [storeGet acc.1 kv.2], acc.2 ++ [(kv.1, acc.1.length)])

/-- `copy.deepcopy(self.seed_path_dictionary)` (line 32). -/
def deepcopyDict (s : Store) (d : RefDict) : Store × RefDict :=
  d.foldl deepStep (s, [])

/-- The loop state of one round in the heap model. -/
structure RoundStateH where
  store : Store
  updated_matchup_state : RefDict
  visited : List ℕ
  points_by_seed : Points
  current_opponent : Option ℕ
  rand_index : ℕ

/-- One loop iteration of a round in the heap model: `matchup_path.pop(0)`
writes the shortened list back through the slot's reference, and the winner
inherits that same reference (line 71). -/
def processEntryH (table : WinProbTable) (randFn : ℕ → ℚ) (origKeys : RefDict)
    (st : RoundStateH) (entry : ℕ × ℕ) : Except SimError RoundStateH :=
  if entry.1 ∈ st.visited then .ok st
  else
    match storeGet st.store entry.2 with
    | [] => .error (.emptyPath entry.1)
    | next_opponent :: matchup_path =>
      let store1 := st.store.set entry.2 matchup_path
      let found : Option ℕ × List ℕ :=
        match next_opponent with
        | .single o => (some o, st.visited)
        | .cands cs =>
          match cs.find? (fun c => (dictGet origKeys c).isSome) with
          | some c => (some c, st.visited ++ [c])
          | none => (st.current_opponent, st.visited)
      match found.1 with
      | none => .error (.unboundOpponent entry.1)
      | some opp =>
        match extract_win_probability_by_seed table entry.1 opp with
        | .error e => .error e
        | .ok p =>
          let winning_seed := if randFn st.rand_index < p then entry.1 else opp
          match dictIncr st.points_by_seed winning_seed winning_seed with
          | none => .error (.keyError winning_seed)
          | some pts =>
            .ok { store := store1
                  updated_matchup_state :=
                    st.updated_matchup_state ++ [(winning_seed, entry.2)]
                  visited := found.2
                  points_by_seed := pts
                  current_opponent := some opp
                  rand_index := st.rand_index + 1 }

/-- One round in the heap model. -/
def simulate_round_H (table : WinProbTable) (randFn : ℕ → ℚ) (store : Store)
    (current : RefDict) (pts : Points) (idx : ℕ) :
    Except SimError (Store × RefDict × Points × ℕ) :=
  (current.foldlM (processEntryH table randFn current)
      ⟨store, [], [], pts, none, idx⟩).map
    (fun st => (st.store, st.updated_matchup_state, st.points_by_seed, st.rand_index))

/-- `n` rounds in the heap model. -/
def simulateRoundsH (table : WinProbTable) (randFn : ℕ → ℚ) :
    ℕ → Store → RefDict → Points → ℕ →
      Except SimError (Store × RefDict × Points × ℕ)
  | 0, s, d, pts, idx => .ok (s, d, pts, idx)
  | n + 1, s, d, pts, idx => do
    let r ← simulate_round_H table randFn s d pts idx
    simulateRoundsH table randFn n r.1 r.2.1 r.2.2.1 r.2.2.2

/-- `simulate_region_tournament` on a fresh instance in the heap model:
deep-copy the caller-supplied schedule at construction, then run 4 rounds on
the copy. -/
def simulate_region_tournament_H (table : WinProbTable) (randFn : ℕ → ℚ)
    (store : Store) (seed_path_dictionary : RefDict) :
    Except SimError (Store × RefDict × Points × ℕ) :=
  simulateRoundsH table randFn 4 (deepcopyDict store seed_path_dictionary).1
    (deepcopyDict store seed_path_dictionary).2 initial_points_by_seed 0

/-- A concrete caller-side store for the C10 witness: the eight schedule
lists of `SEED_PATH_DICTIONARY` as heap objects. -/
def callerStore : Store := SEED_PATH_DICTIONARY.map Prod.snd

/-- The caller's schedule dictionary for the C10 witness: seeds 1–8 bound to
references 0–7 in `callerStore`. -/
def callerScheduleDict : RefDict :=
  [(1, 0), (2, 1), (3, 2), (4, 3), (5, 4), (6, 5), (7, 6), (8, 7)]

/-! ### Helper lemmas about the dictionary model -/

theorem dictGet_not_isEmpty {α : Type} {l : List (ℕ × α)} {k : ℕ} {v : α}
    (h : dictGet l k = some v) : l.isEmpty = false := by
  cases l with
  | nil => simp [dictGet] at h
  | cons kv rest => rfl

theorem dictGet_mem {α : Type} {l : List (ℕ × α)} {k : ℕ} {v : α}
    (h : dictGet l k = some v) : (k, v) ∈ l := by
  induction l with
  | nil => simp [dictGet] at h
  | cons kv rest ih =>
    by_cases hk : kv.1 = k
    · rw [dictGet, if_pos hk] at h
      obtain rfl : kv.2 = v := Option.some.inj h
      simp [← hk]
    · rw [dictGet, if_neg hk] at h
      exact List.mem_cons_of_mem _ (ih h)

theorem dictIncr_spec {pts : Points} {key amt : ℕ} {pts' : Points}
    (h : dictIncr pts key amt = some pts') :
    (∃ v, dictGet pts key = some v ∧ dictGet pts' key = some (v + amt)) ∧
    (∀ k, k ≠ key → dictGet pts' k = dictGet pts k) ∧
    pts'.map Prod.fst = pts.map Prod.fst := by
  induction pts generalizing pts' with
  | nil => simp [dictIncr] at h
  | cons kv rest ih =>
    by_cases hk : kv.1 = key
    · rw [dictIncr, if_pos hk] at h
      obtain rfl : (kv.1, kv.2 + amt) :: rest = pts' := Option.some.inj h
      refine ⟨⟨kv.2, ?_, ?_⟩, ?_, by simp⟩
      · rw [dictGet, if_pos hk]
      · rw [dictGet, if_pos hk]
      · intro k hkk
        have hne : kv.1 = k ↔ False := by
          constructor
          · intro hh; exact hkk (hh ▸ hk.symm ▸ rfl) |>.elim
          · exact False.elim
        rw [dictGet, dictGet]
        rw [hk] at hne ⊢
        rw [if_neg (fun hh => (hne.mp hh)), if_neg (fun hh => (hne.mp hh))]
    · rw [dictIncr, if_neg hk] at h
      cases hrest : dictIncr rest key amt with
      | none => rw [hrest] at h; simp at h
      | some r =>
        rw [hrest] at h
        obtain rfl : kv :: r = pts' := Option.some.inj h
        obtain ⟨⟨v, hv1, hv2⟩, hother, hkeys⟩ := ih hrest
        refine ⟨⟨v, ?_, ?_⟩, ?_, by simp [hkeys]⟩
        · rw [dictGet, if_neg hk]; exact hv1
        · rw [dictGet, if_neg hk]; exact hv2
        · intro k hkk
          by_cases hkvk : kv.1 = k
          · rw [dictGet, if_pos hkvk, dictGet, if_pos hkvk]
          · rw [dictGet, if_neg hkvk, dictGet, if_neg hkvk]
            exact hother k hkk

/-! ### Inversion lemmas for one loop iteration of a round -/

theorem processEntry_visited {table : WinProbTable} {randFn : ℕ → ℚ}
    {orig : MatchupState} {st : RoundState} {seed : ℕ} {path : List Desc}
    (hv : seed ∈ st.visited) :
    processEntry table randFn orig st (seed, path) = .ok st := by
  simp [processEntry, hv]

theorem processEntry_single_inv {table : WinProbTable} {randFn : ℕ → ℚ}
    {orig : MatchupState} {st : RoundState} {seed o : ℕ}
    {path : List Desc} {st' : RoundState}
    (hv : seed ∉ st.visited)
    (hp : processEntry table randFn orig st (seed, .single o :: path) = .ok st') :
    ∃ p pts',
      extract_win_probability_by_seed table seed o = .ok p ∧
      dictIncr st.points_by_seed (if randFn st.rand_index < p then seed else o)
        (if randFn st.rand_index < p then seed else o) = some pts' ∧
      st' = { updated_matchup_state := st.updated_matchup_state ++
                [(if randFn st.rand_index < p then seed else o, path)]
              visited := st.visited
              points_by_seed := pts'
              current_opponent := some o
              rand_index := st.rand_index + 1 } := by
  unfold processEntry at hp
  dsimp only at hp
  rw [if_neg hv] at hp
  cases hex : extract_win_probability_by_seed table seed o with
  | error e => simp only [hex] at hp; exact Except.noConfusion hp
  | ok p =>
    simp only [hex] at hp
    cases hincr : dictIncr st.points_by_seed
        (if randFn st.rand_index < p then seed else o)
        (if randFn st.rand_index < p then seed else o) with
    | none => simp only [hincr] at hp; exact Except.noConfusion hp
    | some pts =>
      simp only [hincr, Except.ok.injEq] at hp
      exact ⟨p, pts, rfl, hincr, hp.symm⟩

theorem processEntry_cands_inv {table : WinProbTable} {randFn : ℕ → ℚ}
    {orig : MatchupState} {st : RoundState} {seed b : ℕ} {cs : List ℕ}
    {path : List Desc} {st' : RoundState}
    (hv : seed ∉ st.visited)
    (hfind : cs.find? (fun c => (dictGet orig c).isSome) = some b)
    (hp : processEntry table randFn orig st (seed, .cands cs :: path) = .ok st') :
    ∃ p pts',
      extract_win_probability_by_seed table seed b = .ok p ∧
      dictIncr st.points_by_seed (if randFn st.rand_index < p then seed else b)
        (if randFn st.rand_index < p then seed else b) = some pts' ∧
      st' = { updated_matchup_state := st.updated_matchup_state ++
                [(if randFn st.rand_index < p then seed else b, path)]
              visited := st.visited ++ [b]
              points_by_seed := pts'
              current_opponent := some b
              rand_index := st.rand_index + 1 } := by
  unfold processEntry at hp
  dsimp only at hp
  rw [if_neg hv] at hp
  rw [hfind] at hp
  dsimp only at hp
  cases hex : extract_win_probability_by_seed table seed b with
  | error e => simp only [hex] at hp; exact Except.noConfusion hp
  | ok p =>
    simp only [hex] at hp
    cases hincr : dictIncr st.points_by_seed
        (if randFn st.rand_index < p then seed else b)
        (if randFn st.rand_index < p then seed else b) with
    | none => simp only [hincr] at hp; exact Except.noConfusion hp
    | some pts =>
      simp only [hincr, Except.ok.injEq] at hp
      exact ⟨p, pts, rfl, hincr, hp.symm⟩

theorem processEntry_cands_stale_inv {table : WinProbTable} {randFn : ℕ → ℚ}
    {orig : MatchupState} {st : RoundState} {seed : ℕ} {cs : List ℕ}
    {path : List Desc} {st' : RoundState}
    (hv : seed ∉ st.visited)
    (hfind : cs.find? (fun c => (dictGet orig c).isSome) = none)
    (hp : processEntry table randFn orig st (seed, .cands cs :: path) = .ok st') :
    ∃ opp p pts',
      st.current_opponent = some opp ∧
      extract_win_probability_by_seed table seed opp = .ok p ∧
      dictIncr st.points_by_seed (if randFn st.rand_index < p then seed else opp)
        (if randFn st.rand_index < p then seed else opp) = some pts' ∧
      st' = { updated_matchup_state := st.updated_matchup_state ++
                [(if randFn st.rand_index < p then seed else opp, path)]
              visited := st.visited
              points_by_seed := pts'
              current_opponent := some opp
              rand_index := st.rand_index + 1 } := by
  unfold processEntry at hp
  dsimp only at hp
  rw [if_neg hv] at hp
  rw [hfind] at hp
  dsimp only at hp
  cases hco : st.current_opponent with
  | none => simp only [hco] at hp; exact Except.noConfusion hp
  | some opp =>
    simp only [hco] at hp
    cases hex : extract_win_probability_by_seed table seed opp with
    | error e => simp only [hex] at hp; exact Except.noConfusion hp
    | ok p =>
      simp only [hex] at hp
      cases hincr : dictIncr st.points_by_seed
          (if randFn st.rand_index < p then seed else opp)
          (if randFn st.rand_index < p then seed else opp) with
      | none => simp only [hincr] at hp; exact Except.noConfusion hp
      | some pts =>
        simp only [hincr, Except.ok.injEq] at hp
        exact ⟨opp, p, pts, rfl, hex, hincr, hp.symm⟩

theorem processEntry_ok_unvisited {table : WinProbTable} {randFn : ℕ → ℚ}
    {orig : MatchupState} {st : RoundState} {seed : ℕ} {d : Desc}
    {path : List Desc} {st' : RoundState}
    (hv : seed ∉ st.visited)
    (hp : processEntry table randFn orig st (seed, d :: path) = .ok st') :
    ∃ opp p pts' vis,
      extract_win_probability_by_seed table seed opp = .ok p ∧
      dictIncr st.points_by_seed (if randFn st.rand_index < p then seed else opp)
        (if randFn st.rand_index < p then seed else opp) = some pts' ∧
      st' = { updated_matchup_state := st.updated_matchup_state ++
                [(if randFn st.rand_index < p then seed else opp, path)]
              visited := vis
              points_by_seed := pts'
              current_opponent := some opp
              rand_index := st.rand_index + 1 } := by
  cases d with
  | single o =>
    obtain ⟨p, pts', hex, hincr, rfl⟩ := processEntry_single_inv hv hp
    exact ⟨o, p, pts', st.visited, hex, hincr, rfl⟩
  | cands cs =>
    cases hfind : cs.find? (fun c => (dictGet orig c).isSome) with
    | some b =>
      obtain ⟨p, pts', hex, hincr, rfl⟩ := processEntry_cands_inv hv hfind hp
      exact ⟨b, p, pts', st.visited ++ [b], hex, hincr, rfl⟩
    | none =>
      obtain ⟨opp, p, pts', _, hex, hincr, rfl⟩ :=
        processEntry_cands_stale_inv hv hfind hp
      exact ⟨opp, p, pts', st.visited, hex, hincr, rfl⟩

/-! ### C1: the winner inherits the slot's remaining schedule -/

/-- C1: in every round, when the matchup of a primary iterand seed `S` (with
head descriptor `d` and remaining schedule `path`) is resolved, the winner —
whether `S` or the opponent — is mapped in the next-round matchup state to
`path`, the sequence popped from `S`'s slot schedule, never to the opponent's
own sequence.  In particular a bottom-half seed that wins round 1 continues
with the slot's schedule. -/
theorem winner_inherits_slot_path {table : WinProbTable} {randFn : ℕ → ℚ}
    {orig : MatchupState} {st : RoundState} {seed : ℕ} {d : Desc}
    {path : List Desc} {st' : RoundState}
    (hv : seed ∉ st.visited)
    (hp : processEntry table randFn orig st (seed, d :: path) = .ok st') :
    ∃ w opp, (w = seed ∨ w = opp) ∧
      st'.updated_matchup_state = st.updated_matchup_state ++ [(w, path)] := by
  obtain ⟨opp, p, pts', vis, _, _, rfl⟩ := processEntry_ok_unvisited hv hp
  refine ⟨if randFn st.rand_index < p then seed else opp, opp, ?_, rfl⟩
  by_cases hq : randFn st.rand_index < p
  · exact Or.inl (if_pos hq)
  · exact Or.inr (if_neg hq)

/-- Witness for C1: seed 16 (a bottom-half seed) beats seed 1 in round 1
(probability of seed 1 winning is 0) and is mapped to slot 1's remaining
schedule (here `[]`), not to a schedule of its own. -/
theorem winner_inherits_slot_path_witness :
    ∃ w opp, (w = 1 ∨ w = opp) ∧
      (RoundState.mk [(16, [])] [] [(1, 0), (16, 16)] (some 16) 1).updated_matchup_state
        = ([] : MatchupState) ++ [(w, [])] :=
  @winner_inherits_slot_path [(1, [(16, 0)])] (fun _ => 1/2)
    [(1, [Desc.single 16])] ⟨[], [], [(1, 0), (16, 0)], none, 0⟩
    1 (Desc.single 16) [] ⟨[(16, [])], [], [(1, 0), (16, 16)], some 16, 1⟩
    (List.not_mem_nil 1) (by with_unfolding_all rfl)

/-! ### C2: symmetric probability lookup -/

/-- C2: if the pair `(a, b)` is populated in exactly one direction `a → b`
with value `p` (there is an entry for `b` under `a`, and no entry for `a`
under `b`), then the lookup returns `p` for `(a, b)` and `1 - p` for
`(b, a)`. -/
theorem extract_symmetric {table : WinProbTable} {a b : ℕ}
    {la : List (ℕ × ℚ)} {p : ℚ}
    (ha : dictGet table a = some la) (hab : dictGet la b = some p)
    (hrev : ∀ lb, dictGet table b = some lb → dictGet lb a = none) :
    extract_win_probability_by_seed table a b = .ok p ∧
    extract_win_probability_by_seed table b a = .ok (1 - p) := by
  have hne := dictGet_not_isEmpty hab
  constructor
  · rw [extract_win_probability_by_seed, ha]
    simp [hne, hab]
  · have hfb : extractFallback table b a = .ok (1 - p) := by
      rw [extractFallback, ha]
      simp [hne, hab]
    rw [extract_win_probability_by_seed]
    cases hb : dictGet table b with
    | none => exact hfb
    | some lb =>
      have hlb := hrev lb hb
      dsimp only
      split
      · exact hfb
      · rw [hlb]
        exact hfb

/-- Witness for C2: a table populated only in the direction 1 → 16 with
probability 49/50; the lookup for (1, 16) yields 49/50 and the lookup for
(16, 1) yields 1 - 49/50. -/
theorem extract_symmetric_witness :
    extract_win_probability_by_seed [(1, [(16, 49/50)])] 1 16 = .ok (49/50) ∧
    extract_win_probability_by_seed [(1, [(16, 49/50)])] 16 1 = .ok (1 - 49/50) :=
  @extract_symmetric [(1, [(16, 49/50)])] 1 16 [(16, 49/50)] (49/50) rfl rfl
    (fun _ h => Option.noConfusion h)

/-! ### C3: the missing-probability error -/

theorem extractFallback_error_iff {table : WinProbTable} {a b : ℕ} :
    extractFallback table a b = .error (.missingProb a b) ↔
      ¬ pairPopulated table b a := by
  rw [extractFallback]
  cases hb : dictGet table b with
  | none =>
    refine iff_of_true rfl ?_
    rintro ⟨l, q, hl, -⟩
    rw [hb] at hl
    exact Option.noConfusion hl
  | some lb =>
    have hpop : pairPopulated table b a ↔ ∃ q, dictGet lb a = some q := by
      constructor
      · rintro ⟨l, q, hl, hq⟩
        rw [hb] at hl
        exact ⟨q, Option.some.inj hl ▸ hq⟩
      · rintro ⟨q, hq⟩
        exact ⟨lb, q, hb, hq⟩
    dsimp only
    cases lb with
    | nil =>
      simp only [List.isEmpty_nil, if_true]
      refine iff_of_true (by trivial) ?_
      intro hq
      obtain ⟨q, hq2⟩ := hpop.mp hq
      simp [dictGet] at hq2
    | cons kv rest =>
      simp only [List.isEmpty_cons, Bool.false_eq_true, if_false]
      cases hba : dictGet (kv :: rest) a with
      | none =>
        refine iff_of_true rfl ?_
        intro hq
        obtain ⟨q, hq2⟩ := hpop.mp hq
        rw [hba] at hq2
        exact Option.noConfusion hq2
      | some q =>
        refine iff_of_false (by simp) ?_
        exact not_not_intro (hpop.mpr ⟨q, hba⟩)

theorem extract_error_iff {table : WinProbTable} {a b : ℕ} :
    extract_win_probability_by_seed table a b = .error (.missingProb a b) ↔
      ¬ pairPopulated table a b ∧ ¬ pairPopulated table b a := by
  rw [extract_win_probability_by_seed]
  cases ha : dictGet table a with
  | none =>
    have hnp : ¬ pairPopulated table a b := by
      rintro ⟨l, q, hl, -⟩
      rw [ha] at hl
      exact Option.noConfusion hl
    exact extractFallback_error_iff.trans ⟨fun h => ⟨hnp, h⟩, fun h => h.2⟩
  | some la =>
    have hpop : pairPopulated table a b ↔ ∃ q, dictGet la b = some q := by
      constructor
      · rintro ⟨l, q, hl, hq⟩
        rw [ha] at hl
        exact ⟨q, Option.some.inj hl ▸ hq⟩
      · rintro ⟨q, hq⟩
        exact ⟨la, q, ha, hq⟩
    dsimp only
    cases la with
    | nil =>
      simp only [List.isEmpty_nil, if_true]
      have hnp : ¬ pairPopulated table a b := by
        intro hq
        obtain ⟨q, hq2⟩ := hpop.mp hq
        simp [dictGet] at hq2
      exact extractFallback_error_iff.trans ⟨fun h => ⟨hnp, h⟩, fun h => h.2⟩
    | cons kv rest =>
      simp only [List.isEmpty_cons, Bool.false_eq_true, if_false]
      cases hba : dictGet (kv :: rest) b with
      | some q =>
        refine iff_of_false (by simp) ?_
        rintro ⟨hnab, -⟩
        exact hnab (hpop.mpr ⟨q, hba⟩)
      | none =>
        have hnp : ¬ pairPopulated table a b := by
          intro hq
          obtain ⟨q, hq2⟩ := hpop.mp hq
          rw [hba] at hq2
          exact Option.noConfusion hq2
        exact extractFallback_error_iff.trans ⟨fun h => ⟨hnp, h⟩, fun h => h.2⟩

theorem roundError_propagates {table : WinProbTable} {randFn : ℕ → ℚ}
    {st : MatchupState} {pts : Points} {idx n : ℕ} {e : SimError}
    (h : simulate_round_and_update_current_state table randFn st pts idx = .error e) :
    simulateRounds table randFn (n + 1) st pts idx = .error e := by
  rw [simulateRounds, h]
  rfl

/-- C3: the probability lookup fails with the `MissingMatchupProbability`
error naming both seeds exactly when the pair has an entry in neither
direction of the table; and such an error in a round aborts the whole
simulation run, propagating unchanged to the caller with no retry or
defaulting. -/
theorem missing_matchup_probability_iff (table : WinProbTable) (randFn : ℕ → ℚ) :
    (∀ a b, extract_win_probability_by_seed table a b = .error (.missingProb a b) ↔
      ¬ pairPopulated table a b ∧ ¬ pairPopulated table b a) ∧
    (∀ st pts idx n e,
      simulate_round_and_update_current_state table randFn st pts idx = .error e →
      simulateRounds table randFn (n + 1) st pts idx = .error e) :=
  ⟨fun _ _ => extract_error_iff, fun _ _ _ _ _ h => roundError_propagates h⟩

/-- Witness for C3: with the table `{1: {}}` the matchup (1, 16) has no entry
in either direction, the lookup errors naming seeds 1 and 16, and a full
4-round simulation on the real schedule aborts with that same error. -/
theorem missing_matchup_probability_witness :
    extract_win_probability_by_seed [(1, [])] 1 16 = .error (.missingProb 1 16) ∧
    simulateRounds [(1, [])] (fun _ => 1/2) 4 SEED_PATH_DICTIONARY
      initial_points_by_seed 0 = .error (.missingProb 1 16) := by
  constructor
  · refine ((missing_matchup_probability_iff [(1, [])] (fun _ => 1/2)).1 1 16).mpr
      ⟨?_, ?_⟩
    · rintro ⟨l, q, hl, hq⟩
      simp [dictGet] at hl
      subst hl
      simp [dictGet] at hq
    · rintro ⟨l, q, hl, -⟩
      simp [dictGet] at hl
  · exact (missing_matchup_probability_iff [(1, [])] (fun _ => 1/2)).2
      SEED_PATH_DICTIONARY initial_points_by_seed 0 3 (.missingProb 1 16)
      (by with_unfolding_all rfl)

/-! ### C7: a win scores the winner's own seed value -/

/-- C7: whenever a matchup is resolved, the winner `w` — the seed selected by
the Bernoulli draw against the looked-up win probability `p` of the primary
iterand over the resolved opponent (`w` is the primary iterand exactly when
the draw falls below `p`, the opponent otherwise), the very seed mapped into
the next-round state — has its `points_by_seed` entry grow by exactly `w`'s
own seed value, and every other seed's entry is unchanged by that matchup. -/
theorem win_adds_winner_seed_points {table : WinProbTable} {randFn : ℕ → ℚ}
    {orig : MatchupState} {st : RoundState} {seed : ℕ} {d : Desc}
    {path : List Desc} {st' : RoundState}
    (hv : seed ∉ st.visited)
    (hp : processEntry table randFn orig st (seed, d :: path) = .ok st') :
    ∃ opp p w,
      extract_win_probability_by_seed table seed opp = .ok p ∧
      w = (if randFn st.rand_index < p then seed else opp) ∧
      st'.updated_matchup_state = st.updated_matchup_state ++ [(w, path)] ∧
      ∃ v, dictGet st.points_by_seed w = some v ∧
        dictGet st'.points_by_seed w = some (v + w) ∧
        ∀ k, k ≠ w → dictGet st'.points_by_seed k = dictGet st.points_by_seed k := by
  obtain ⟨opp, p, pts', vis, hex, hincr, rfl⟩ := processEntry_ok_unvisited hv hp
  obtain ⟨⟨v, hv1, hv2⟩, hother, -⟩ := dictIncr_spec hincr
  exact ⟨opp, p, _, hex, rfl, rfl, v, hv1, hv2, hother⟩

/-- Witness for C7: the win probability of seed 5 over seed 12 is 0, so the
draw 1/2 selects the opponent: the winner is 12, it is the seed advanced to
the next round, and 12 points are added to seed 12's entry while seed 5's
entry is unchanged. -/
theorem win_adds_winner_seed_points_witness :
    ∃ opp p w,
      extract_win_probability_by_seed [(5, [(12, 0)])] 5 opp = .ok p ∧
      w = (if (1 : ℚ)/2 < p then 5 else opp) ∧
      (RoundState.mk [(12, [])] [] [(5, 3), (12, 19)] (some 12) 1
        : RoundState).updated_matchup_state = ([] : MatchupState) ++ [(w, [])] ∧
      ∃ v, dictGet ([(5, 3), (12, 7)] : Points) w = some v ∧
        dictGet ((RoundState.mk [(12, [])] [] [(5, 3), (12, 19)] (some 12) 1
          : RoundState).points_by_seed) w = some (v + w) ∧
        ∀ k, k ≠ w → dictGet ((RoundState.mk [(12, [])] [] [(5, 3), (12, 19)]
          (some 12) 1 : RoundState).points_by_seed) k
          = dictGet ([(5, 3), (12, 7)] : Points) k :=
  @win_adds_winner_seed_points [(5, [(12, 0)])] (fun _ => 1/2)
    [(5, [Desc.single 12])] ⟨[], [], [(5, 3), (12, 7)], none, 0⟩
    5 (Desc.single 12) [] ⟨[(12, [])], [], [(5, 3), (12, 19)], some 12, 1⟩
    (List.not_mem_nil 5) (by with_unfolding_all rfl)

/-! ### C8: shape and monotonicity of the points dictionary -/

theorem except_bind_ok {ε α β : Type} {x : Except ε α} {f : α → Except ε β} {r : β}
    (h : x >>= f = .ok r) : ∃ a, x = .ok a ∧ f a = .ok r := by
  cases x with
  | error e => exact Except.noConfusion h
  | ok a => exact ⟨a, rfl, h⟩

theorem except_map_ok {ε α β : Type} {x : Except ε α} {f : α → β} {r : β}
    (h : x.map f = .ok r) : ∃ a, x = .ok a ∧ f a = r := by
  cases x with
  | error e => exact Except.noConfusion h
  | ok a => exact ⟨a, rfl, Except.ok.inj h⟩

theorem processEntry_points_mono {table : WinProbTable} {randFn : ℕ → ℚ}
    {orig : MatchupState} {st : RoundState} {entry : ℕ × List Desc}
    {st' : RoundState}
    (hp : processEntry table randFn orig st entry = .ok st') :
    st'.points_by_seed.map Prod.fst = st.points_by_seed.map Prod.fst ∧
    (∀ k v, dictGet st.points_by_seed k = some v →
      ∃ v', dictGet st'.points_by_seed k = some v' ∧ v ≤ v') := by
  obtain ⟨seed, path⟩ := entry
  by_cases hv : seed ∈ st.visited
  · rw [processEntry_visited hv] at hp
    obtain rfl := Except.ok.inj hp
    exact ⟨rfl, fun k v h => ⟨v, h, le_refl v⟩⟩
  · cases path with
    | nil =>
      unfold processEntry at hp
      dsimp only at hp
      rw [if_neg hv] at hp
      exact Except.noConfusion hp
    | cons d rest =>
      obtain ⟨opp, p, pts', vis, hex, hincr, rfl⟩ := processEntry_ok_unvisited hv hp
      obtain ⟨⟨v0, hv1, hv2⟩, hother, hkeys⟩ := dictIncr_spec hincr
      refine ⟨hkeys, fun k v h => ?_⟩
      by_cases hk : k = (if randFn st.rand_index < p then seed else opp)
      · subst hk
        have hvv : v0 = v := Option.some.inj (hv1.symm.trans h)
        exact ⟨v + _, hvv ▸ hv2, Nat.le_add_right _ _⟩
      · exact ⟨v, (hother k hk).trans h, le_refl v⟩

theorem foldlM_points_mono {table : WinProbTable} {randFn : ℕ → ℚ}
    {orig : MatchupState} :
    ∀ (l : List (ℕ × List Desc)) (st stf : RoundState),
      List.foldlM (processEntry table randFn orig) st l = .ok stf →
      stf.points_by_seed.map Prod.fst = st.points_by_seed.map Prod.fst ∧
      (∀ k v, dictGet st.points_by_seed k = some v →
        ∃ v', dictGet stf.points_by_seed k = some v' ∧ v ≤ v')
  | [], st, stf, h => by
    obtain rfl := Except.ok.inj h
    exact ⟨rfl, fun k v hv => ⟨v, hv, le_refl v⟩⟩
  | e :: l, st, stf, h => by
    rw [List.foldlM_cons] at h
    obtain ⟨st1, h1, h2⟩ := except_bind_ok h
    obtain ⟨k1, m1⟩ := processEntry_points_mono h1
    obtain ⟨k2, m2⟩ := foldlM_points_mono l st1 stf h2
    refine ⟨k2.trans k1, fun k v hv => ?_⟩
    obtain ⟨v1, hv1, hle1⟩ := m1 k v hv
    obtain ⟨v2, hv2, hle2⟩ := m2 k v1 hv1
    exact ⟨v2, hv2, hle1.trans hle2⟩

/-- C8: at construction `points_by_seed` maps exactly the seeds 1–16, in
order, all to 0; and every successful round leaves the key list unchanged
while every seed's accumulated value is non-decreasing (values are natural
numbers, hence non-negative). -/
theorem points_by_seed_invariant :
    (initial_points_by_seed.map Prod.fst = (List.range 16).map (fun n => n + 1) ∧
      ∀ kv ∈ initial_points_by_seed, kv.2 = 0) ∧
    ∀ (table : WinProbTable) (randFn : ℕ → ℚ) (st : MatchupState) (pts : Points)
      (idx : ℕ) (st' : MatchupState) (pts' : Points) (idx' : ℕ),
      simulate_round_and_update_current_state table randFn st pts idx
        = .ok (st', pts', idx') →
      pts'.map Prod.fst = pts.map Prod.fst ∧
      (∀ k v, dictGet pts k = some v → ∃ v', dictGet pts' k = some v' ∧ v ≤ v') := by
  refine ⟨⟨by decide, by decide⟩, ?_⟩
  intro table randFn st pts idx st' pts' idx' h
  rw [simulate_round_and_update_current_state] at h
  obtain ⟨stf, hfold, hmap⟩ := except_map_ok h
  obtain ⟨hk, hm⟩ := foldlM_points_mono st ⟨[], [], pts, none, idx⟩ stf hfold
  injection hmap with h1 hrest
  injection hrest with h2 h3
  subst h2
  exact ⟨hk, hm⟩

/-- Witness for C8: the initial points dictionary has key list 1..16, and a
concrete successful round (seed 1 beating seed 2) preserves the key list of
the points dictionary. -/
theorem points_by_seed_invariant_witness :
    initial_points_by_seed.map Prod.fst = (List.range 16).map (fun n => n + 1) ∧
    ([(1, 1), (2, 0)] : Points).map Prod.fst
      = ([(1, 0), (2, 0)] : Points).map Prod.fst :=
  ⟨points_by_seed_invariant.1.1,
   (points_by_seed_invariant.2 [(1, [(2, 1)])] (fun _ => 1/2) [(1, [Desc.single 2])]
      [(1, 0), (2, 0)] 0 [(1, [])] [(1, 1), (2, 0)] 1 (by with_unfolding_all rfl)).1⟩

/-! ### C4 and C5: the discretizer -/

theorem listMin_isSome : ∀ {l : List ℚ}, l ≠ [] → ∃ m, listMin l = some m
  | [], h => absurd rfl h
  | x :: xs, _ => by
    cases h : listMin xs with
    | none => exact ⟨x, by rw [listMin, h]⟩
    | some m => exact ⟨min x m, by rw [listMin, h]⟩

theorem listMin_mem : ∀ {l : List ℚ} {m : ℚ}, listMin l = some m → m ∈ l
  | [], m, h => by rw [listMin] at h; exact Option.noConfusion h
  | x :: xs, m, h => by
    rw [listMin] at h
    cases hx : listMin xs with
    | none =>
      rw [hx] at h
      obtain rfl := Option.some.inj h
      exact List.mem_cons_self x xs
    | some m2 =>
      rw [hx] at h
      obtain rfl := Option.some.inj h
      rcases min_cases x m2 with ⟨heq, -⟩ | ⟨heq, -⟩
      · rw [heq]; exact List.mem_cons_self x xs
      · rw [heq]; exact List.mem_cons_of_mem x (listMin_mem hx)

theorem listMin_le : ∀ {l : List ℚ} {m : ℚ}, listMin l = some m → ∀ x ∈ l, m ≤ x
  | [], m, h => by rw [listMin] at h; exact Option.noConfusion h
  | x :: xs, m, h => by
    rw [listMin] at h
    cases hx : listMin xs with
    | none =>
      rw [hx] at h
      obtain rfl := Option.some.inj h
      intro y hy
      have hxs : xs = [] := by
        cases xs with
        | nil => rfl
        | cons a as =>
          rw [listMin] at hx
          cases h2 : listMin as <;> rw [h2] at hx <;> exact Option.noConfusion hx
      subst hxs
      have hyx : y = x := by simpa using hy
      exact le_of_eq hyx.symm
    | some m2 =>
      rw [hx] at h
      obtain rfl := Option.some.inj h
      intro y hy
      rcases List.mem_cons.mp hy with hyx | hmem
      · exact le_of_le_of_eq (min_le_left x m2) hyx.symm
      · exact (min_le_right x m2).trans (listMin_le hx y hmem)

theorem firstIdxEq_of_mem : ∀ {l : List ℚ} {m : ℚ}, m ∈ l →
    ∃ i, firstIdxEq m l = some i ∧ i < l.length ∧ l.getD i 0 = m ∧
      ∀ j, j < i → l.getD j 0 ≠ m
  | [], m, h => absurd h (List.not_mem_nil m)
  | x :: xs, m, h => by
    by_cases hx : x = m
    · exact ⟨0, by rw [firstIdxEq, if_pos hx], Nat.succ_pos _, by simpa using hx,
        fun j hj => absurd hj (Nat.not_lt_zero j)⟩
    · have hmem : m ∈ xs := by
        rcases List.mem_cons.mp h with rfl | h2
        · exact absurd rfl hx
        · exact h2
      obtain ⟨i, hfi, hlen, hget, hprev⟩ := firstIdxEq_of_mem hmem
      refine ⟨i + 1, ?_, Nat.succ_lt_succ hlen, by simpa using hget, ?_⟩
      · rw [firstIdxEq, if_neg hx, hfi]; rfl
      · intro j hj
        cases j with
        | zero => simpa using hx
        | succ n =>
          rw [List.getD_cons_succ]
          exact hprev n (Nat.lt_of_succ_lt_succ hj)

theorem find?_eq_of_first {α : Type} (p : α → Bool) (d : α) :
    ∀ (l : List α) (i : ℕ), i < l.length →
      p (l.getD i d) = true → (∀ j, j < i → p (l.getD j d) = false) →
      l.find? p = some (l.getD i d) := by
  intro l
  induction l with
  | nil => intro i hi; simp at hi
  | cons x xs ih =>
    intro i hi hp hprev
    cases i with
    | zero =>
      rw [List.getD_cons_zero] at hp ⊢
      rw [List.find?_cons_of_pos _ hp]
    | succ n =>
      have hx : p x = false := by
        have := hprev 0 (Nat.succ_pos n)
        rwa [List.getD_cons_zero] at this
      rw [List.getD_cons_succ] at hp ⊢
      rw [List.find?_cons_of_neg _ (by simp [hx])]
      refine ih n (by simpa using hi) hp (fun j hj => ?_)
      have := hprev (j + 1) (Nat.succ_lt_succ hj)
      rwa [List.getD_cons_succ] at this

theorem getD_mem_of_lt {α : Type} (l : List α) (j : ℕ) (d : α)
    (h : j < l.length) : l.getD j d ∈ l := by
  rw [List.getD_eq_getElem l d h]
  exact List.getElem_mem h

theorem getD_map_dist (v : ℚ) : ∀ (l : List ℤ) (i : ℕ), i < l.length →
    (l.map (fun (c : ℤ) => |(c : ℚ) - v|)).getD i 0 = |((l.getD i 0 : ℤ) : ℚ) - v| := by
  intro l
  induction l with
  | nil => intro i hi; simp at hi
  | cons x xs ih =>
    intro i hi
    cases i with
    | zero => simp
    | succ n => simpa using ih n (by simpa using hi)

theorem eraseIdx_eq_removeFirst : ∀ (l : List ℤ) (i : ℕ), i < l.length →
    (∀ j, j < i → l.getD j 0 ≠ l.getD i 0) →
    l.eraseIdx i = removeFirst (l.getD i 0) l := by
  intro l
  induction l with
  | nil => intro i hi; simp at hi
  | cons x xs ih =>
    intro i hi hprev
    cases i with
    | zero =>
      rw [List.getD_cons_zero, List.eraseIdx_cons_zero, removeFirst, if_pos rfl]
    | succ n =>
      have hx : x ≠ (x :: xs).getD (n + 1) 0 := by
        have := hprev 0 (Nat.succ_pos n)
        rwa [List.getD_cons_zero] at this
      rw [List.getD_cons_succ] at hx ⊢
      rw [List.eraseIdx_cons_succ, removeFirst, if_neg hx]
      congr 1
      refine ih n (by simpa using hi) (fun j hj => ?_)
      have := hprev (j + 1) (Nat.succ_lt_succ hj)
      rwa [List.getD_cons_succ, List.getD_cons_succ] at this

theorem length_removeFirst_of_mem {c : ℤ} :
    ∀ {l : List ℤ}, c ∈ l → (removeFirst c l).length + 1 = l.length
  | [], h => absurd h (List.not_mem_nil c)
  | x :: xs, h => by
    by_cases hx : x = c
    · rw [removeFirst, if_pos hx]; rfl
    · have hmem : c ∈ xs := by
        rcases List.mem_cons.mp h with rfl | h2
        · exact absurd rfl hx
        · exact h2
      rw [removeFirst, if_neg hx]
      simpa using length_removeFirst_of_mem hmem

theorem mem_of_removeFirst {c d : ℤ} :
    ∀ {l : List ℤ}, d ∈ removeFirst c l → d ∈ l
  | [], h => absurd h (List.not_mem_nil d)
  | x :: xs, h => by
    by_cases hx : x = c
    · rw [removeFirst, if_pos hx] at h
      exact List.mem_cons_of_mem x h
    · rw [removeFirst, if_neg hx] at h
      rcases List.mem_cons.mp h with rfl | h2
      · exact List.mem_cons_self d xs
      · exact List.mem_cons_of_mem x (mem_of_removeFirst h2)

theorem nodup_removeFirst {c : ℤ} :
    ∀ {l : List ℤ}, l.Nodup → (removeFirst c l).Nodup
  | [], _ => List.nodup_nil
  | x :: xs, h => by
    obtain ⟨hx, hxs⟩ := List.nodup_cons.mp h
    by_cases hxc : x = c
    · rw [removeFirst, if_pos hxc]; exact hxs
    · rw [removeFirst, if_neg hxc]
      exact List.nodup_cons.mpr ⟨fun hmem => hx (mem_of_removeFirst hmem),
        nodup_removeFirst hxs⟩

theorem not_mem_removeFirst_self {c : ℤ} :
    ∀ {l : List ℤ}, l.Nodup → c ∉ removeFirst c l
  | [], _ => by rw [removeFirst]; exact List.not_mem_nil c
  | x :: xs, h => by
    obtain ⟨hx, hxs⟩ := List.nodup_cons.mp h
    by_cases hxc : x = c
    · rw [removeFirst, if_pos hxc]
      subst hxc
      exact hx
    · rw [removeFirst, if_neg hxc]
      intro hmem
      rcases List.mem_cons.mp hmem with rfl | h2
      · exact hxc rfl
      · exact not_mem_removeFirst_self hxs h2

theorem nearest_step (v : ℚ) (space : List ℤ) (hne : space ≠ []) :
    ∃ i c, npArgmin (space.map (fun (c : ℤ) => |(c : ℚ) - v|)) = some i ∧
      i < space.length ∧ space.getD i 0 = c ∧
      nearestRemainingSpec v space = some c ∧ c ∈ space ∧
      space.eraseIdx i = removeFirst c space := by
  set dl := space.map (fun (c : ℤ) => |(c : ℚ) - v|) with hdl
  have hdne : dl ≠ [] := by
    rw [hdl]
    simpa using hne
  obtain ⟨m, hm⟩ := listMin_isSome hdne
  have hle := listMin_le hm
  obtain ⟨i, hfi, hilen, hget, hfirst⟩ := firstIdxEq_of_mem (listMin_mem hm)
  have hilen' : i < space.length := by
    rw [hdl, List.length_map] at hilen
    exact hilen
  have hdist : |((space.getD i 0 : ℤ) : ℚ) - v| = m := by
    rw [← getD_map_dist v space i hilen', ← hdl, hget]
  have hdistj : ∀ j, j < space.length →
      dl.getD j 0 = |((space.getD j 0 : ℤ) : ℚ) - v| := by
    intro j hj
    rw [hdl]
    exact getD_map_dist v space j hj
  refine ⟨i, space.getD i 0, ?_, hilen', rfl, ?_, getD_mem_of_lt space i 0 hilen', ?_⟩
  · rw [npArgmin, hm]
    exact hfi
  · refine find?_eq_of_first _ 0 space i hilen' ?_ ?_
    · rw [List.all_eq_true]
      intro c2 hc2
      rw [decide_eq_true_iff, hdist]
      exact hle _ (List.mem_map_of_mem _ hc2)
    · intro j hj
      have hjlen : j < space.length := hj.trans hilen'
      have hne2 : |((space.getD j 0 : ℤ) : ℚ) - v| ≠ m := by
        rw [← hdistj j hjlen]
        exact hfirst j hj
      have hgem : m ≤ |((space.getD j 0 : ℤ) : ℚ) - v| := by
        rw [← hdistj j hjlen]
        exact hle _ (getD_mem_of_lt dl j 0 (by rw [hdl, List.length_map]; exact hjlen))
      rw [Bool.eq_false_iff]
      intro hall
      rw [List.all_eq_true] at hall
      have hc := hall (space.getD i 0) (getD_mem_of_lt space i 0 hilen')
      rw [decide_eq_true_iff, hdist] at hc
      exact hne2 (le_antisymm hc hgem)
  · refine eraseIdx_eq_removeFirst space i hilen' (fun j hj heq => ?_)
    refine hfirst j hj ?_
    rw [hdistj j (hj.trans hilen'), heq, hdist]

theorem clipLoop_spec : ∀ (inputs : List ℚ) (space acc : List ℤ),
    space.Nodup → inputs.length ≤ space.length →
    ∃ out, clipLoop false inputs space acc = .ok (acc ++ out) ∧
      clipSpec inputs space = some out ∧ out.length = inputs.length ∧
      (∀ c ∈ out, c ∈ space) ∧ out.Nodup
  | [], space, acc, _, _ =>
    ⟨[], by rw [clipLoop]; simp, rfl, rfl, by simp, List.nodup_nil⟩
  | v :: vs, space, acc, hnd, hlen => by
    have hne : space ≠ [] := by
      intro h
      subst h
      simp at hlen
    obtain ⟨i, c, hargmin, hilen, hget, hnear, hcmem, herase⟩ := nearest_step v space hne
    have hnd' : (removeFirst c space).Nodup := nodup_removeFirst hnd
    have hlen' : vs.length ≤ (removeFirst c space).length := by
      have h1 := length_removeFirst_of_mem hcmem
      simp only [List.length_cons] at hlen
      omega
    obtain ⟨out, hloop, hspec, hl, hsub, hnodup⟩ :=
      clipLoop_spec vs (removeFirst c space) (acc ++ [c]) hnd' hlen'
    refine ⟨c :: out, ?_, ?_, by simp [hl], ?_, ?_⟩
    · rw [clipLoop, hargmin]
      dsimp only
      rw [hget, herase]
      simpa using hloop
    · rw [clipSpec, hnear]
      dsimp only
      rw [hspec]
      rfl
    · intro d hd
      rcases List.mem_cons.mp hd with rfl | hd2
      · exact hcmem
      · exact mem_of_removeFirst (hsub d hd2)
    · refine List.nodup_cons.mpr ⟨fun hcout => ?_, hnodup⟩
      exact not_mem_removeFirst_self hnd (hsub c hcout)

/-- C4: with `replace = false`, a duplicate-free candidate space and at most
as many inputs as candidates, the discretizer succeeds, agrees with the
spec-side algorithm (each output is the nearest remaining candidate at the
time it was chosen, ties to the earliest in the working copy's order), has
the same length as the input (position-aligned), and repeats no value. -/
theorem clip_matches_spec (inputs : List ℚ) (space : List ℤ)
    (hnd : space.Nodup) (hlen : inputs.length ≤ space.length) :
    ∃ out, clip_continuous_inputs_to_discrete_search_space inputs (some space) false
        = .ok out ∧
      clipSpec inputs space = some out ∧ out.length = inputs.length ∧
      out.Nodup := by
  obtain ⟨out, h1, h2, h3, -, h5⟩ := clipLoop_spec inputs space [] hnd hlen
  refine ⟨out, ?_, h2, h3, h5⟩
  rw [clip_continuous_inputs_to_discrete_search_space]
  simpa using h1

/-- Witness for C4: the spec's example — inputs [16.4, 1.1, 1.2] over the
default candidate space 1..16 give [16, 1, 2]: no repeats, aligned with the
input, each the nearest remaining candidate. -/
theorem clip_matches_spec_witness :
    (∃ out, clip_continuous_inputs_to_discrete_search_space [82/5, 11/10, 6/5]
        (some SINGLE_REGION_SEARCH_SPACE) false = .ok out ∧
      clipSpec [82/5, 11/10, 6/5] SINGLE_REGION_SEARCH_SPACE = some out ∧
      out.length = [(82 : ℚ)/5, 11/10, 6/5].length ∧ out.Nodup) ∧
    clip_continuous_inputs_to_discrete_search_space [82/5, 11/10, 6/5]
      (some SINGLE_REGION_SEARCH_SPACE) false = .ok [16, 1, 2] :=
  ⟨clip_matches_spec [82/5, 11/10, 6/5] SINGLE_REGION_SEARCH_SPACE
      (by decide) (by decide),
   by with_unfolding_all rfl⟩

theorem clipLoop_exhausted : ∀ (inputs : List ℚ) (space acc : List ℤ),
    space.length < inputs.length →
    clipLoop false inputs space acc = .error .exhaustedSearchSpace
  | [], _, _, h => absurd h (by simp)
  | v :: vs, space, acc, h => by
    cases hsp : space with
    | nil =>
      rw [clipLoop]
      rfl
    | cons x xs =>
      obtain ⟨i, c, hargmin, hilen, -, -, -, -⟩ :=
        nearest_step v (x :: xs) (by simp)
      rw [clipLoop, hargmin]
      dsimp only
      refine clipLoop_exhausted vs ((x :: xs).eraseIdx i) _ ?_
      subst hsp
      rw [List.length_eraseIdx]
      simp only [List.length_cons] at h hilen ⊢
      rw [if_pos hilen]
      omega

/-- C5: with `replace = false` and more inputs than candidates, the
discretizer fails with the exhausted-search-space error (it neither wraps
around nor reuses a removed candidate). -/
theorem clip_exhausted_error (inputs : List ℚ) (space : List ℤ)
    (h : space.length < inputs.length) :
    clip_continuous_inputs_to_discrete_search_space inputs (some space) false
      = .error .exhaustedSearchSpace := by
  rw [clip_continuous_inputs_to_discrete_search_space]
  exact clipLoop_exhausted inputs space [] h

/-- Witness for C5: 17 inputs against the 16-element candidate space 1..16
raise the exhausted-search-space error. -/
theorem clip_exhausted_error_witness :
    clip_continuous_inputs_to_discrete_search_space (List.replicate 17 0)
      (some SINGLE_REGION_SEARCH_SPACE) false = .error .exhaustedSearchSpace :=
  clip_exhausted_error (List.replicate 17 0) SINGLE_REGION_SEARCH_SPACE (by decide)

/-! ### The round-by-round structure of a full simulation on the real
schedule, used for C6 and C9. -/

theorem ite_or {c : Prop} [Decidable c] (a b : ℕ) :
    (if c then a else b) = a ∨ (if c then a else b) = b := by
  by_cases h : c
  · exact Or.inl (if_pos h)
  · exact Or.inr (if_neg h)

theorem foldlM_visited {table : WinProbTable} {randFn : ℕ → ℚ}
    {orig : MatchupState} :
    ∀ (l : List (ℕ × List Desc)) (st : RoundState),
      (∀ e ∈ l, e.1 ∈ st.visited) →
      List.foldlM (processEntry table randFn orig) st l = .ok st
  | [], _, _ => rfl
  | e :: l, st, h => by
    rw [List.foldlM_cons, processEntry_visited (h e (List.mem_cons_self e l))]
    show List.foldlM (processEntry table randFn orig) st l = .ok st
    exact foldlM_visited l st (fun e2 he2 => h e2 (List.mem_cons_of_mem e he2))

theorem simulateRounds_succ_ok {table : WinProbTable} {randFn : ℕ → ℚ}
    {n : ℕ} {st : MatchupState} {pts : Points} {idx : ℕ}
    {r : MatchupState × Points × ℕ}
    (h : simulateRounds table randFn (n + 1) st pts idx = .ok r) :
    ∃ m, simulate_round_and_update_current_state table randFn st pts idx = .ok m ∧
      simulateRounds table randFn n m.1 m.2.1 m.2.2 = .ok r := by
  rw [simulateRounds] at h
  exact except_bind_ok h

theorem round1_structure {table : WinProbTable} {randFn : ℕ → ℚ}
    {pts : Points} {idx : ℕ} {st' : MatchupState} {pts' : Points} {idx' : ℕ}
    (hok : simulate_round_and_update_current_state table randFn SEED_PATH_DICTIONARY
      pts idx = .ok (st', pts', idx')) :
    idx' = idx + 8 ∧ ∃ w1 w2 w3 w4 w5 w6 w7 w8,
      (w1 = 1 ∨ w1 = 16) ∧ (w2 = 2 ∨ w2 = 15) ∧ (w3 = 3 ∨ w3 = 14) ∧
      (w4 = 4 ∨ w4 = 13) ∧ (w5 = 5 ∨ w5 = 12) ∧ (w6 = 6 ∨ w6 = 11) ∧
      (w7 = 7 ∨ w7 = 10) ∧ (w8 = 8 ∨ w8 = 9) ∧
      st' = [(w1, [Desc.cands [8, 9], Desc.cands [4, 5, 12, 13],
                   Desc.cands [2, 3, 6, 7, 10, 11, 14, 15]]),
             (w2, [Desc.cands [7, 10], Desc.cands [3, 6, 11, 14],
                   Desc.cands [1, 4, 5, 8, 9, 12, 13, 16]]),
             (w3, [Desc.cands [6, 11], Desc.cands [2, 7, 10, 15],
                   Desc.cands [1, 4, 5, 8, 9, 12, 13, 16]]),
             (w4, [Desc.cands [5, 12], Desc.cands [1, 8, 9, 16],
                   Desc.cands [2, 3, 6, 7, 10, 11, 14, 15]]),
             (w5, [Desc.cands [4, 13], Desc.cands [1, 8, 9, 16],
                   Desc.cands [2, 3, 6, 7, 10, 11, 14, 15]]),
             (w6, [Desc.cands [3, 14], Desc.cands [2, 7, 10, 15],
                   Desc.cands [1, 4, 5, 8, 9, 12, 13, 16]]),
             (w7, [Desc.cands [2, 15], Desc.cands [3, 6, 11, 14],
                   Desc.cands [1, 4, 5, 8, 9, 12, 13, 16]]),
             (w8, [Desc.cands [1, 16], Desc.cands [4, 5, 12, 13],
                   Desc.cands [2, 3, 6, 7, 10, 11, 14, 15]])] := by
  rw [simulate_round_and_update_current_state] at hok
  obtain ⟨stf, hfold, hmap⟩ := except_map_ok hok
  rw [SEED_PATH_DICTIONARY] at hfold
  rw [List.foldlM_cons] at hfold
  obtain ⟨stA, hsA, hfold⟩ := except_bind_ok hfold
  obtain ⟨pA, qA, hexA, hincrA, rfl⟩ := processEntry_single_inv (by simp) hsA
  rw [List.foldlM_cons] at hfold
  obtain ⟨stB, hsB, hfold⟩ := except_bind_ok hfold
  obtain ⟨pB, qB, hexB, hincrB, rfl⟩ := processEntry_single_inv (by simp) hsB
  rw [List.foldlM_cons] at hfold
  obtain ⟨stC, hsC, hfold⟩ := except_bind_ok hfold
  obtain ⟨pC, qC, hexC, hincrC, rfl⟩ := processEntry_single_inv (by simp) hsC
  rw [List.foldlM_cons] at hfold
  obtain ⟨stD, hsD, hfold⟩ := except_bind_ok hfold
  obtain ⟨pD, qD, hexD, hincrD, rfl⟩ := processEntry_single_inv (by simp) hsD
  rw [List.foldlM_cons] at hfold
  obtain ⟨stE, hsE, hfold⟩ := except_bind_ok hfold
  obtain ⟨pE, qE, hexE, hincrE, rfl⟩ := processEntry_single_inv (by simp) hsE
  rw [List.foldlM_cons] at hfold
  obtain ⟨stF, hsF, hfold⟩ := except_bind_ok hfold
  obtain ⟨pF, qF, hexF, hincrF, rfl⟩ := processEntry_single_inv (by simp) hsF
  rw [List.foldlM_cons] at hfold
  obtain ⟨stG, hsG, hfold⟩ := except_bind_ok hfold
  obtain ⟨pG, qG, hexG, hincrG, rfl⟩ := processEntry_single_inv (by simp) hsG
  rw [List.foldlM_cons] at hfold
  obtain ⟨stH, hsH, hfold⟩ := except_bind_ok hfold
  obtain ⟨pH, qH, hexH, hincrH, rfl⟩ := processEntry_single_inv (by simp) hsH
  rw [List.foldlM_nil] at hfold
  obtain rfl : _ = stf := Except.ok.inj hfold
  injection hmap with hm1 hmrest
  injection hmrest with hm2 hm3
  subst hm1
  subst hm2
  subst hm3
  constructor
  · rfl
  · exact ⟨_, _, _, _, _, _, _, _, ite_or _ _, ite_or _ _, ite_or _ _, ite_or _ _,
      ite_or _ _, ite_or _ _, ite_or _ _, ite_or _ _, rfl⟩

theorem round2_structure {table : WinProbTable} {randFn : ℕ → ℚ}
    {s1 s2 s3 s4 s5 s6 s7 s8 : ℕ} {pts : Points} {idx : ℕ}
    {st' : MatchupState} {pts' : Points} {idx' : ℕ}
    (h1 : s1 = 1 ∨ s1 = 16) (h2 : s2 = 2 ∨ s2 = 15) (h3 : s3 = 3 ∨ s3 = 14)
    (h4 : s4 = 4 ∨ s4 = 13) (h5 : s5 = 5 ∨ s5 = 12) (h6 : s6 = 6 ∨ s6 = 11)
    (h7 : s7 = 7 ∨ s7 = 10) (h8 : s8 = 8 ∨ s8 = 9)
    (hok : simulate_round_and_update_current_state table randFn
      [(s1, [Desc.cands [8, 9], Desc.cands [4, 5, 12, 13],
             Desc.cands [2, 3, 6, 7, 10, 11, 14, 15]]),
       (s2, [Desc.cands [7, 10], Desc.cands [3, 6, 11, 14],
             Desc.cands [1, 4, 5, 8, 9, 12, 13, 16]]),
       (s3, [Desc.cands [6, 11], Desc.cands [2, 7, 10, 15],
             Desc.cands [1, 4, 5, 8, 9, 12, 13, 16]]),
       (s4, [Desc.cands [5, 12], Desc.cands [1, 8, 9, 16],
             Desc.cands [2, 3, 6, 7, 10, 11, 14, 15]]),
       (s5, [Desc.cands [4, 13], Desc.cands [1, 8, 9, 16],
             Desc.cands [2, 3, 6, 7, 10, 11, 14, 15]]),
       (s6, [Desc.cands [3, 14], Desc.cands [2, 7, 10, 15],
             Desc.cands [1, 4, 5, 8, 9, 12, 13, 16]]),
       (s7, [Desc.cands [2, 15], Desc.cands [3, 6, 11, 14],
             Desc.cands [1, 4, 5, 8, 9, 12, 13, 16]]),
       (s8, [Desc.cands [1, 16], Desc.cands [4, 5, 12, 13],
             Desc.cands [2, 3, 6, 7, 10, 11, 14, 15]])]
      pts idx = .ok (st', pts', idx')) :
    idx' = idx + 4 ∧ ∃ w1 w2 w3 w4,
      (w1 = s1 ∨ w1 = s8) ∧ (w2 = s2 ∨ w2 = s7) ∧ (w3 = s3 ∨ w3 = s6) ∧
      (w4 = s4 ∨ w4 = s5) ∧
      st' = [(w1, [Desc.cands [4, 5, 12, 13], Desc.cands [2, 3, 6, 7, 10, 11, 14, 15]]),
             (w2, [Desc.cands [3, 6, 11, 14], Desc.cands [1, 4, 5, 8, 9, 12, 13, 16]]),
             (w3, [Desc.cands [2, 7, 10, 15], Desc.cands [1, 4, 5, 8, 9, 12, 13, 16]]),
             (w4, [Desc.cands [1, 8, 9, 16], Desc.cands [2, 3, 6, 7, 10, 11, 14, 15]])] := by
  rw [simulate_round_and_update_current_state] at hok
  obtain ⟨stf, hfold, hmap⟩ := except_map_ok hok
  rcases h1 with rfl | rfl <;> rcases h2 with rfl | rfl <;> rcases h3 with rfl | rfl <;>
    rcases h4 with rfl | rfl <;> rcases h5 with rfl | rfl <;> rcases h6 with rfl | rfl <;>
    rcases h7 with rfl | rfl <;> rcases h8 with rfl | rfl <;>
    (rw [List.foldlM_cons] at hfold;
     obtain ⟨stA, hsA, hfold⟩ := except_bind_ok hfold;
     obtain ⟨pA, qA, hexA, hincrA, rfl⟩ := processEntry_cands_inv (by simp) (by rfl) hsA;
     rw [List.foldlM_cons] at hfold;
     obtain ⟨stB, hsB, hfold⟩ := except_bind_ok hfold;
     obtain ⟨pB, qB, hexB, hincrB, rfl⟩ := processEntry_cands_inv (by simp) (by rfl) hsB;
     rw [List.foldlM_cons] at hfold;
     obtain ⟨stC, hsC, hfold⟩ := except_bind_ok hfold;
     obtain ⟨pC, qC, hexC, hincrC, rfl⟩ := processEntry_cands_inv (by simp) (by rfl) hsC;
     rw [List.foldlM_cons] at hfold;
     obtain ⟨stD, hsD, hfold⟩ := except_bind_ok hfold;
     obtain ⟨pD, qD, hexD, hincrD, rfl⟩ := processEntry_cands_inv (by simp) (by rfl) hsD;
     rw [foldlM_visited _ _ (by simp)] at hfold;
     obtain rfl : _ = stf := Except.ok.inj hfold;
     injection hmap with hm1 hmrest;
     injection hmrest with hm2 hm3;
     subst hm1;
     subst hm2;
     subst hm3;
     exact ⟨rfl, _, _, _, _, ite_or _ _, ite_or _ _, ite_or _ _, ite_or _ _, rfl⟩)

theorem round3_structure {table : WinProbTable} {randFn : ℕ → ℚ}
    {a b c d : ℕ} {pts : Points} {idx : ℕ}
    {st' : MatchupState} {pts' : Points} {idx' : ℕ}
    (ha : a = 1 ∨ a = 16 ∨ a = 8 ∨ a = 9) (hb : b = 2 ∨ b = 15 ∨ b = 7 ∨ b = 10)
    (hc : c = 3 ∨ c = 14 ∨ c = 6 ∨ c = 11) (hd : d = 4 ∨ d = 13 ∨ d = 5 ∨ d = 12)
    (hok : simulate_round_and_update_current_state table randFn
      [(a, [Desc.cands [4, 5, 12, 13], Desc.cands [2, 3, 6, 7, 10, 11, 14, 15]]),
       (b, [Desc.cands [3, 6, 11, 14], Desc.cands [1, 4, 5, 8, 9, 12, 13, 16]]),
       (c, [Desc.cands [2, 7, 10, 15], Desc.cands [1, 4, 5, 8, 9, 12, 13, 16]]),
       (d, [Desc.cands [1, 8, 9, 16], Desc.cands [2, 3, 6, 7, 10, 11, 14, 15]])]
      pts idx = .ok (st', pts', idx')) :
    idx' = idx + 2 ∧ ∃ u1 u2,
      (u1 = a ∨ u1 = d) ∧ (u2 = b ∨ u2 = c) ∧
      st' = [(u1, [Desc.cands [2, 3, 6, 7, 10, 11, 14, 15]]),
             (u2, [Desc.cands [1, 4, 5, 8, 9, 12, 13, 16]])] := by
  rw [simulate_round_and_update_current_state] at hok
  obtain ⟨stf, hfold, hmap⟩ := except_map_ok hok
  rcases ha with rfl | rfl | rfl | rfl <;> rcases hb with rfl | rfl | rfl | rfl <;>
    rcases hc with rfl | rfl | rfl | rfl <;> rcases hd with rfl | rfl | rfl | rfl <;>
    (rw [List.foldlM_cons] at hfold;
     obtain ⟨stA, hsA, hfold⟩ := except_bind_ok hfold;
     obtain ⟨pA, qA, hexA, hincrA, rfl⟩ := processEntry_cands_inv (by simp) (by rfl) hsA;
     rw [List.foldlM_cons] at hfold;
     obtain ⟨stB, hsB, hfold⟩ := except_bind_ok hfold;
     obtain ⟨pB, qB, hexB, hincrB, rfl⟩ := processEntry_cands_inv (by simp) (by rfl) hsB;
     rw [foldlM_visited _ _ (by simp)] at hfold;
     obtain rfl : _ = stf := Except.ok.inj hfold;
     injection hmap with hm1 hmrest;
     injection hmrest with hm2 hm3;
     subst hm1;
     subst hm2;
     subst hm3;
     exact ⟨rfl, _, _, ite_or _ _, ite_or _ _, rfl⟩)

theorem round4_structure {table : WinProbTable} {randFn : ℕ → ℚ}
    {x y : ℕ} {pts : Points} {idx : ℕ}
    {st' : MatchupState} {pts' : Points} {idx' : ℕ}
    (hx : x = 1 ∨ x = 16 ∨ x = 8 ∨ x = 9 ∨ x = 4 ∨ x = 13 ∨ x = 5 ∨ x = 12)
    (hy : y = 2 ∨ y = 15 ∨ y = 7 ∨ y = 10 ∨ y = 3 ∨ y = 14 ∨ y = 6 ∨ y = 11)
    (hok : simulate_round_and_update_current_state table randFn
      [(x, [Desc.cands [2, 3, 6, 7, 10, 11, 14, 15]]),
       (y, [Desc.cands [1, 4, 5, 8, 9, 12, 13, 16]])]
      pts idx = .ok (st', pts', idx')) :
    idx' = idx + 1 ∧ ∃ ch, (ch = x ∨ ch = y) ∧ st' = [(ch, [])] := by
  rw [simulate_round_and_update_current_state] at hok
  obtain ⟨stf, hfold, hmap⟩ := except_map_ok hok
  rcases hx with rfl | rfl | rfl | rfl | rfl | rfl | rfl | rfl <;>
    rcases hy with rfl | rfl | rfl | rfl | rfl | rfl | rfl | rfl <;>
    (rw [List.foldlM_cons] at hfold;
     obtain ⟨stA, hsA, hfold⟩ := except_bind_ok hfold;
     obtain ⟨pA, qA, hexA, hincrA, rfl⟩ := processEntry_cands_inv (by simp) (by rfl) hsA;
     rw [foldlM_visited _ _ (by simp)] at hfold;
     obtain rfl : _ = stf := Except.ok.inj hfold;
     injection hmap with hm1 hmrest;
     injection hmrest with hm2 hm3;
     subst hm1;
     subst hm2;
     subst hm3;
     exact ⟨rfl, _, ite_or _ _, rfl⟩)

theorem or4_of_left {u a b : ℕ} (h : u = a ∨ u = b) (c d : ℕ) :
    u = a ∨ u = b ∨ u = c ∨ u = d := by
  rcases h with rfl | rfl
  · exact Or.inl rfl
  · exact Or.inr (Or.inl rfl)

theorem or4_of_right {u c d : ℕ} (h : u = c ∨ u = d) (a b : ℕ) :
    u = a ∨ u = b ∨ u = c ∨ u = d := by
  rcases h with rfl | rfl
  · exact Or.inr (Or.inr (Or.inl rfl))
  · exact Or.inr (Or.inr (Or.inr rfl))

theorem or8_of_left {u a b c d : ℕ} (h : u = a ∨ u = b ∨ u = c ∨ u = d)
    (e f g k : ℕ) :
    u = a ∨ u = b ∨ u = c ∨ u = d ∨ u = e ∨ u = f ∨ u = g ∨ u = k := by
  rcases h with rfl | rfl | rfl | rfl
  · exact Or.inl rfl
  · exact Or.inr (Or.inl rfl)
  · exact Or.inr (Or.inr (Or.inl rfl))
  · exact Or.inr (Or.inr (Or.inr (Or.inl rfl)))

theorem or8_of_right {u e f g k : ℕ} (h : u = e ∨ u = f ∨ u = g ∨ u = k)
    (a b c d : ℕ) :
    u = a ∨ u = b ∨ u = c ∨ u = d ∨ u = e ∨ u = f ∨ u = g ∨ u = k := by
  rcases h with rfl | rfl | rfl | rfl
  · exact Or.inr (Or.inr (Or.inr (Or.inr (Or.inl rfl))))
  · exact Or.inr (Or.inr (Or.inr (Or.inr (Or.inr (Or.inl rfl)))))
  · exact Or.inr (Or.inr (Or.inr (Or.inr (Or.inr (Or.inr (Or.inl rfl))))))
  · exact Or.inr (Or.inr (Or.inr (Or.inr (Or.inr (Or.inr (Or.inr rfl))))))

/-! ### C6: exactly fifteen matchups per simulation -/

theorem simulate_chain_structure {table : WinProbTable} {randFn : ℕ → ℚ}
    {st_final : MatchupState} {pts_final : Points} {idx_final : ℕ}
    (hok : simulate_region_tournament table randFn SEED_PATH_DICTIONARY
      = .ok (st_final, pts_final, idx_final)) :
    idx_final = 15 ∧ (∃ ch, st_final = [(ch, [])]) ∧ ∃ s1 p1 s2 p2 s3 p3,
      simulate_round_and_update_current_state table randFn SEED_PATH_DICTIONARY
        initial_points_by_seed 0 = .ok (s1, p1, 8) ∧
      simulate_round_and_update_current_state table randFn s1 p1 8
        = .ok (s2, p2, 12) ∧
      simulate_round_and_update_current_state table randFn s2 p2 12
        = .ok (s3, p3, 14) ∧
      simulate_round_and_update_current_state table randFn s3 p3 14
        = .ok (st_final, pts_final, 15) := by
  rw [simulate_region_tournament] at hok
  obtain ⟨m1, hr1, hok⟩ := simulateRounds_succ_ok hok
  obtain ⟨s1, p1, i1⟩ := m1
  obtain ⟨m2, hr2, hok⟩ := simulateRounds_succ_ok hok
  obtain ⟨s2, p2, i2⟩ := m2
  obtain ⟨m3, hr3, hok⟩ := simulateRounds_succ_ok hok
  obtain ⟨s3, p3, i3⟩ := m3
  obtain ⟨m4, hr4, hok⟩ := simulateRounds_succ_ok hok
  obtain ⟨s4, p4, i4⟩ := m4
  dsimp only at hr2 hr3 hr4 hok
  obtain ⟨hi1, w1, w2, w3, w4, w5, w6, w7, w8,
    hw1, hw2, hw3, hw4, hw5, hw6, hw7, hw8, rfl⟩ := round1_structure hr1
  obtain rfl : i1 = 8 := hi1
  obtain ⟨hi2, u1, u2, u3, u4, hu1, hu2, hu3, hu4, rfl⟩ :=
    round2_structure hw1 hw2 hw3 hw4 hw5 hw6 hw7 hw8 hr2
  obtain rfl : i2 = 12 := hi2
  have ha : u1 = 1 ∨ u1 = 16 ∨ u1 = 8 ∨ u1 = 9 :=
    Or.elim hu1 (fun h => h ▸ or4_of_left hw1 8 9)
      (fun h => h ▸ or4_of_right hw8 1 16)
  have hb : u2 = 2 ∨ u2 = 15 ∨ u2 = 7 ∨ u2 = 10 :=
    Or.elim hu2 (fun h => h ▸ or4_of_left hw2 7 10)
      (fun h => h ▸ or4_of_right hw7 2 15)
  have hcc : u3 = 3 ∨ u3 = 14 ∨ u3 = 6 ∨ u3 = 11 :=
    Or.elim hu3 (fun h => h ▸ or4_of_left hw3 6 11)
      (fun h => h ▸ or4_of_right hw6 3 14)
  have hdd : u4 = 4 ∨ u4 = 13 ∨ u4 = 5 ∨ u4 = 12 :=
    Or.elim hu4 (fun h => h ▸ or4_of_left hw4 5 12)
      (fun h => h ▸ or4_of_right hw5 4 13)
  obtain ⟨hi3, v1, v2, hv1, hv2, rfl⟩ := round3_structure ha hb hcc hdd hr3
  obtain rfl : i3 = 14 := hi3
  have hx : v1 = 1 ∨ v1 = 16 ∨ v1 = 8 ∨ v1 = 9 ∨ v1 = 4 ∨ v1 = 13 ∨ v1 = 5 ∨ v1 = 12 :=
    Or.elim hv1 (fun h => h ▸ or8_of_left ha 4 13 5 12)
      (fun h => h ▸ or8_of_right hdd 1 16 8 9)
  have hy : v2 = 2 ∨ v2 = 15 ∨ v2 = 7 ∨ v2 = 10 ∨ v2 = 3 ∨ v2 = 14 ∨ v2 = 6 ∨ v2 = 11 :=
    Or.elim hv2 (fun h => h ▸ or8_of_left hb 3 14 6 11)
      (fun h => h ▸ or8_of_right hcc 2 15 7 10)
  obtain ⟨hi4, ch, hch, rfl⟩ := round4_structure hx hy hr4
  obtain rfl : i4 = 15 := hi4
  rw [simulateRounds] at hok
  injection hok with hA
  injection hA with hA1 hArest
  injection hArest with hA2 hA3
  subst hA1
  subst hA2
  subst hA3
  exact ⟨rfl, ⟨ch, rfl⟩, _, _, _, _, _, _, hr1, hr2, hr3, hr4⟩

/-- C6: for every table and random stream for which a `simulate()` call on a
fresh instance over the real schedule succeeds, it resolves exactly 15
matchups (the random index ends at 15), split 8 + 4 + 2 + 1 over the four
rounds (the intermediate random indices are 8, 12, 14 and 15). -/
theorem fifteen_matchups {table : WinProbTable} {randFn : ℕ → ℚ}
    {st_final : MatchupState} {pts_final : Points} {idx_final : ℕ}
    (hok : simulate_region_tournament table randFn SEED_PATH_DICTIONARY
      = .ok (st_final, pts_final, idx_final)) :
    idx_final = 15 ∧ ∃ s1 p1 s2 p2 s3 p3,
      simulate_round_and_update_current_state table randFn SEED_PATH_DICTIONARY
        initial_points_by_seed 0 = .ok (s1, p1, 8) ∧
      simulate_round_and_update_current_state table randFn s1 p1 8
        = .ok (s2, p2, 12) ∧
      simulate_round_and_update_current_state table randFn s2 p2 12
        = .ok (s3, p3, 14) ∧
      simulate_round_and_update_current_state table randFn s3 p3 14
        = .ok (st_final, pts_final, 15) :=
  ⟨(simulate_chain_structure hok).1, (simulate_chain_structure hok).2.2⟩

/-- Witness for C6: the favorites table with the constant draw 1/2 gives a
successful run whose random index ends at 15, with round boundaries at 8, 12,
14, 15. -/
theorem fifteen_matchups_witness :
    (15 : ℕ) = 15 ∧ ∃ s1 p1 s2 p2 s3 p3,
      simulate_round_and_update_current_state favoritesTable (fun _ => 1/2)
        SEED_PATH_DICTIONARY initial_points_by_seed 0 = .ok (s1, p1, 8) ∧
      simulate_round_and_update_current_state favoritesTable (fun _ => 1/2) s1 p1 8
        = .ok (s2, p2, 12) ∧
      simulate_round_and_update_current_state favoritesTable (fun _ => 1/2) s2 p2 12
        = .ok (s3, p3, 14) ∧
      simulate_round_and_update_current_state favoritesTable (fun _ => 1/2) s3 p3 14
        = .ok ([(1, [])],
            [(1, 4), (2, 6), (3, 6), (4, 8), (5, 5), (6, 6), (7, 7), (8, 8), (9, 0),
             (10, 0), (11, 0), (12, 0), (13, 0), (14, 0), (15, 0), (16, 0)], 15) :=
  fifteen_matchups (by with_unfolding_all rfl)

/-! ### C9: determinism with a 0/1 table -/

theorem extractFallback01 {table : WinProbTable}
    (h01 : ∀ kv ∈ table, ∀ e ∈ kv.2, e.2 = 0 ∨ e.2 = 1) {a b : ℕ} {p : ℚ}
    (h : extractFallback table a b = .ok p) : p = 0 ∨ p = 1 := by
  rw [extractFallback] at h
  cases hb : dictGet table b with
  | none => rw [hb] at h; exact Except.noConfusion h
  | some lb =>
    simp only [hb] at h
    by_cases he : lb.isEmpty
    · rw [if_pos he] at h
      exact Except.noConfusion h
    · rw [if_neg he] at h
      cases hba : dictGet lb a with
      | none => simp only [hba] at h; exact Except.noConfusion h
      | some q =>
        simp only [hba, Except.ok.injEq] at h
        subst h
        rcases h01 (b, lb) (dictGet_mem hb) (a, q) (dictGet_mem hba) with h0 | h1
        · right
          have hq : q = 0 := h0
          rw [hq]
          norm_num
        · left
          have hq : q = 1 := h1
          rw [hq]
          norm_num

theorem extract01 {table : WinProbTable}
    (h01 : ∀ kv ∈ table, ∀ e ∈ kv.2, e.2 = 0 ∨ e.2 = 1) {a b : ℕ} {p : ℚ}
    (h : extract_win_probability_by_seed table a b = .ok p) : p = 0 ∨ p = 1 := by
  rw [extract_win_probability_by_seed] at h
  cases ha : dictGet table a with
  | none =>
    simp only [ha] at h
    exact extractFallback01 h01 h
  | some la =>
    simp only [ha] at h
    by_cases he : la.isEmpty
    · rw [if_pos he] at h
      exact extractFallback01 h01 h
    · rw [if_neg he] at h
      cases hab : dictGet la b with
      | none =>
        simp only [hab] at h
        exact extractFallback01 h01 h
      | some q =>
        simp only [hab, Except.ok.injEq] at h
        subst h
        exact h01 (a, la) (dictGet_mem ha) (b, q) (dictGet_mem hab)

theorem processEntry_rand_congr {table : WinProbTable}
    (h01 : ∀ kv ∈ table, ∀ e ∈ kv.2, e.2 = 0 ∨ e.2 = 1)
    {f g : ℕ → ℚ} (hf : ∀ i, 0 ≤ f i ∧ f i < 1) (hg : ∀ i, 0 ≤ g i ∧ g i < 1)
    (orig : MatchupState) (st : RoundState) (entry : ℕ × List Desc) :
    processEntry table f orig st entry = processEntry table g orig st entry := by
  obtain ⟨seed, path⟩ := entry
  unfold processEntry
  dsimp only
  by_cases hv : seed ∈ st.visited
  · rw [if_pos hv, if_pos hv]
  · rw [if_neg hv, if_neg hv]
    cases path with
    | nil => rfl
    | cons d rest =>
      have hwin : ∀ (o : ℕ) (p : ℚ), p = 0 ∨ p = 1 →
          (if f st.rand_index < p then seed else o)
            = (if g st.rand_index < p then seed else o) := by
        intro o p hp
        rcases hp with rfl | rfl
        · rw [if_neg (not_lt.mpr (hf st.rand_index).1),
              if_neg (not_lt.mpr (hg st.rand_index).1)]
        · rw [if_pos (hf st.rand_index).2, if_pos (hg st.rand_index).2]
      rcases d with o | cs
      · dsimp only
        cases hex : extract_win_probability_by_seed table seed o with
        | error e => rfl
        | ok p =>
          dsimp only
          rw [hwin o p (extract01 h01 hex)]
      · dsimp only
        cases hfind : cs.find? (fun c => (dictGet orig c).isSome) with
        | some c =>
          dsimp only
          cases hex : extract_win_probability_by_seed table seed c with
          | error e => rfl
          | ok p =>
            dsimp only
            rw [hwin c p (extract01 h01 hex)]
        | none =>
          dsimp only
          cases hco : st.current_opponent with
          | none => rfl
          | some oc =>
            dsimp only
            cases hex : extract_win_probability_by_seed table seed oc with
            | error e => rfl
            | ok p =>
              dsimp only
              rw [hwin oc p (extract01 h01 hex)]

theorem foldlM_rand_congr {table : WinProbTable}
    (h01 : ∀ kv ∈ table, ∀ e ∈ kv.2, e.2 = 0 ∨ e.2 = 1)
    {f g : ℕ → ℚ} (hf : ∀ i, 0 ≤ f i ∧ f i < 1) (hg : ∀ i, 0 ≤ g i ∧ g i < 1)
    (orig : MatchupState) :
    ∀ (l : List (ℕ × List Desc)) (st : RoundState),
      List.foldlM (processEntry table f orig) st l
        = List.foldlM (processEntry table g orig) st l
  | [], _ => rfl
  | e :: l, st => by
    rw [List.foldlM_cons, List.foldlM_cons,
      processEntry_rand_congr h01 hf hg orig st e]
    cases processEntry table g orig st e with
    | error e2 => rfl
    | ok st2 => exact foldlM_rand_congr h01 hf hg orig l st2

theorem round_rand_congr {table : WinProbTable}
    (h01 : ∀ kv ∈ table, ∀ e ∈ kv.2, e.2 = 0 ∨ e.2 = 1)
    {f g : ℕ → ℚ} (hf : ∀ i, 0 ≤ f i ∧ f i < 1) (hg : ∀ i, 0 ≤ g i ∧ g i < 1)
    (st : MatchupState) (pts : Points) (idx : ℕ) :
    simulate_round_and_update_current_state table f st pts idx
      = simulate_round_and_update_current_state table g st pts idx := by
  rw [simulate_round_and_update_current_state,
    simulate_round_and_update_current_state,
    foldlM_rand_congr h01 hf hg st st ⟨[], [], pts, none, idx⟩]

theorem simulateRounds_rand_congr {table : WinProbTable}
    (h01 : ∀ kv ∈ table, ∀ e ∈ kv.2, e.2 = 0 ∨ e.2 = 1)
    {f g : ℕ → ℚ} (hf : ∀ i, 0 ≤ f i ∧ f i < 1) (hg : ∀ i, 0 ≤ g i ∧ g i < 1) :
    ∀ (n : ℕ) (st : MatchupState) (pts : Points) (idx : ℕ),
      simulateRounds table f n st pts idx = simulateRounds table g n st pts idx
  | 0, _, _, _ => rfl
  | n + 1, st, pts, idx => by
    rw [simulateRounds, simulateRounds, round_rand_congr h01 hf hg st pts idx]
    cases simulate_round_and_update_current_state table g st pts idx with
    | error e => rfl
    | ok r => exact simulateRounds_rand_congr h01 hf hg n r.1 r.2.1 r.2.2

/-- C9: for a win-probability table all of whose stored probabilities are 0
or 1 and any two uniform draw streams in [0, 1), two successful `simulate()`
runs on fresh instances produce identical final matchup states, identical
points dictionaries and identical draw counts, and the final matchup state
holds exactly one entry — the single champion seed. -/
theorem deterministic_simulation {table : WinProbTable} {f g : ℕ → ℚ}
    {st1 : MatchupState} {pts1 : Points} {i1 : ℕ}
    {st2 : MatchupState} {pts2 : Points} {i2 : ℕ}
    (h01 : ∀ kv ∈ table, ∀ e ∈ kv.2, e.2 = 0 ∨ e.2 = 1)
    (hf : ∀ i, 0 ≤ f i ∧ f i < 1) (hg : ∀ i, 0 ≤ g i ∧ g i < 1)
    (hok1 : simulate_region_tournament table f SEED_PATH_DICTIONARY
      = .ok (st1, pts1, i1))
    (hok2 : simulate_region_tournament table g SEED_PATH_DICTIONARY
      = .ok (st2, pts2, i2)) :
    st1 = st2 ∧ pts1 = pts2 ∧ i1 = i2 ∧ ∃ ch, st1 = [(ch, [])] := by
  have hsim : simulate_region_tournament table f SEED_PATH_DICTIONARY
      = simulate_region_tournament table g SEED_PATH_DICTIONARY := by
    rw [simulate_region_tournament, simulate_region_tournament]
    exact simulateRounds_rand_congr h01 hf hg 4 SEED_PATH_DICTIONARY
      initial_points_by_seed 0
  rw [hok1, hok2] at hsim
  injection hsim with hA
  injection hA with h1 hrest
  injection hrest with h2 h3
  exact ⟨h1, h2, h3, (simulate_chain_structure hok1).2.1⟩

/-- Witness for C9: the favorites table (all probabilities 1.0) with draw
streams 1/2 and 1/3 gives identical runs ending in the single champion seed
1. -/
theorem deterministic_simulation_witness :
    ([(1, [])] : MatchupState) = [(1, [])] ∧
    ([(1, 4), (2, 6), (3, 6), (4, 8), (5, 5), (6, 6), (7, 7), (8, 8), (9, 0),
      (10, 0), (11, 0), (12, 0), (13, 0), (14, 0), (15, 0), (16, 0)] : Points)
      = [(1, 4), (2, 6), (3, 6), (4, 8), (5, 5), (6, 6), (7, 7), (8, 8), (9, 0),
         (10, 0), (11, 0), (12, 0), (13, 0), (14, 0), (15, 0), (16, 0)] ∧
    (15 : ℕ) = 15 ∧ ∃ ch, ([(1, [])] : MatchupState) = [(ch, [])] :=
  @deterministic_simulation favoritesTable (fun _ => 1/2) (fun _ => 1/3)
    [(1, [])]
    [(1, 4), (2, 6), (3, 6), (4, 8), (5, 5), (6, 6), (7, 7), (8, 8), (9, 0),
     (10, 0), (11, 0), (12, 0), (13, 0), (14, 0), (15, 0), (16, 0)] 15
    [(1, [])]
    [(1, 4), (2, 6), (3, 6), (4, 8), (5, 5), (6, 6), (7, 7), (8, 8), (9, 0),
     (10, 0), (11, 0), (12, 0), (13, 0), (14, 0), (15, 0), (16, 0)] 15
    (by decide) (fun _ => ⟨by norm_num, by norm_num⟩)
    (fun _ => ⟨by norm_num, by norm_num⟩)
    (by with_unfolding_all rfl) (by with_unfolding_all rfl)

/-! ### C10: the caller's schedule objects are never mutated -/

theorem storeGet_append {s t : Store} {r : ℕ} (h : r < s.length) :
    storeGet (s ++ t) r = storeGet s r := by
  rw [storeGet, storeGet, List.getD_eq_getElem?_getD, List.getD_eq_getElem?_getD,
    List.getElem?_append_left h]

theorem storeGet_set_ne {s : Store} {i r : ℕ} {v : List Desc} (h : r ≠ i) :
    storeGet (s.set i v) r = storeGet s r := by
  rw [storeGet, storeGet, List.getD_eq_getElem?_getD, List.getD_eq_getElem?_getD,
    List.getElem?_set_ne (fun hh => h hh.symm)]

theorem deepcopy_fold_invariant (s0 : Store) :
    ∀ (d : RefDict) (acc : Store × RefDict),
      s0.length ≤ acc.1.length →
      (∀ r, r < s0.length → storeGet acc.1 r = storeGet s0 r) →
      (∀ kv ∈ acc.2, s0.length ≤ kv.2) →
      s0.length ≤ (d.foldl deepStep acc).1.length ∧
      (∀ r, r < s0.length → storeGet (d.foldl deepStep acc).1 r = storeGet s0 r) ∧
      (∀ kv ∈ (d.foldl deepStep acc).2, s0.length ≤ kv.2)
  | [], acc, hlen, hpre, hrefs => ⟨hlen, hpre, hrefs⟩
  | kv :: d, acc, hlen, hpre, hrefs => by
    rw [List.foldl_cons]
    refine deepcopy_fold_invariant s0 d (deepStep acc kv) ?_ ?_ ?_
    · rw [deepStep]
      simp only [List.length_append, List.length_cons, List.length_nil]
      omega
    · intro r hr
      rw [deepStep]
      dsimp only
      rw [storeGet_append (hr.trans_le hlen)]
      exact hpre r hr
    · intro kv2 hkv2
      rw [deepStep] at hkv2
      dsimp only at hkv2
      rcases List.mem_append.mp hkv2 with h2 | h2
      · exact hrefs kv2 h2
      · obtain rfl : kv2 = (kv.1, acc.1.length) := by simpa using h2
        exact hlen

theorem processEntryH_ok_inv {table : WinProbTable} {randFn : ℕ → ℚ}
    {origKeys : RefDict} {st : RoundStateH} {entry : ℕ × ℕ} {st' : RoundStateH}
    (hp : processEntryH table randFn origKeys st entry = .ok st') :
    (st'.store = st.store ∧
      st'.updated_matchup_state = st.updated_matchup_state) ∨
    ∃ w rest pts vis opp,
      st' = { store := st.store.set entry.2 rest
              updated_matchup_state :=
                st.updated_matchup_state ++ [(w, entry.2)]
              visited := vis
              points_by_seed := pts
              current_opponent := opp
              rand_index := st.rand_index + 1 } := by
  rw [processEntryH] at hp
  by_cases hv : entry.1 ∈ st.visited
  · rw [if_pos hv] at hp
    obtain rfl := Except.ok.inj hp
    exact Or.inl ⟨rfl, rfl⟩
  · rw [if_neg hv] at hp
    cases hpop : storeGet st.store entry.2 with
    | nil => simp only [hpop] at hp; exact Except.noConfusion hp
    | cons nd rest =>
      simp only [hpop] at hp
      refine Or.inr ?_
      rcases nd with o | cs
      · dsimp only at hp
        cases hex : extract_win_probability_by_seed table entry.1 o with
        | error e => simp only [hex] at hp; exact Except.noConfusion hp
        | ok p =>
          simp only [hex] at hp
          cases hincr : dictIncr st.points_by_seed
              (if randFn st.rand_index < p then entry.1 else o)
              (if randFn st.rand_index < p then entry.1 else o) with
          | none => simp only [hincr] at hp; exact Except.noConfusion hp
          | some pts =>
            simp only [hincr, Except.ok.injEq] at hp
            exact ⟨_, rest, pts, st.visited, some o, hp.symm⟩
      · dsimp only at hp
        cases hfind : cs.find? (fun c => (dictGet origKeys c).isSome) with
        | some c =>
          simp only [hfind] at hp
          cases hex : extract_win_probability_by_seed table entry.1 c with
          | error e => simp only [hex] at hp; exact Except.noConfusion hp
          | ok p =>
            simp only [hex] at hp
            cases hincr : dictIncr st.points_by_seed
                (if randFn st.rand_index < p then entry.1 else c)
                (if randFn st.rand_index < p then entry.1 else c) with
            | none => simp only [hincr] at hp; exact Except.noConfusion hp
            | some pts =>
              simp only [hincr, Except.ok.injEq] at hp
              exact ⟨_, rest, pts, st.visited ++ [c], some c, hp.symm⟩
        | none =>
          simp only [hfind] at hp
          cases hco : st.current_opponent with
          | none => simp only [hco] at hp; exact Except.noConfusion hp
          | some oc =>
            simp only [hco] at hp
            cases hex : extract_win_probability_by_seed table entry.1 oc with
            | error e => simp only [hex] at hp; exact Except.noConfusion hp
            | ok p =>
              simp only [hex] at hp
              cases hincr : dictIncr st.points_by_seed
                  (if randFn st.rand_index < p then entry.1 else oc)
                  (if randFn st.rand_index < p then entry.1 else oc) with
              | none => simp only [hincr] at hp; exact Except.noConfusion hp
              | some pts =>
                simp only [hincr, Except.ok.injEq] at hp
                exact ⟨_, rest, pts, st.visited, some oc, hp.symm⟩

theorem processEntryH_frame {table : WinProbTable} {randFn : ℕ → ℚ}
    {origKeys : RefDict} {n0 : ℕ} {st st' : RoundStateH} {entry : ℕ × ℕ}
    (hret : n0 ≤ entry.2)
    (hupd : ∀ kv ∈ st.updated_matchup_state, n0 ≤ kv.2)
    (hp : processEntryH table randFn origKeys st entry = .ok st') :
    (∀ r, r < n0 → storeGet st'.store r = storeGet st.store r) ∧
    (∀ kv ∈ st'.updated_matchup_state, n0 ≤ kv.2) := by
  rcases processEntryH_ok_inv hp with ⟨hs, hu⟩ | ⟨w, rest, pts, vis, opp, rfl⟩
  · exact ⟨fun r _ => by rw [hs], fun kv hkv => hupd kv (hu ▸ hkv)⟩
  · constructor
    · intro r hr
      exact storeGet_set_ne (Nat.ne_of_lt (hr.trans_le hret))
    · intro kv hkv
      rcases List.mem_append.mp hkv with h2 | h2
      · exact hupd kv h2
      · obtain rfl : kv = (w, entry.2) := by simpa using h2
        exact hret

theorem foldlMH_frame {table : WinProbTable} {randFn : ℕ → ℚ}
    {origKeys : RefDict} {n0 : ℕ} :
    ∀ (l : List (ℕ × ℕ)) (st stf : RoundStateH),
      (∀ kv ∈ l, n0 ≤ kv.2) →
      (∀ kv ∈ st.updated_matchup_state, n0 ≤ kv.2) →
      List.foldlM (processEntryH table randFn origKeys) st l = .ok stf →
      (∀ r, r < n0 → storeGet stf.store r = storeGet st.store r) ∧
      (∀ kv ∈ stf.updated_matchup_state, n0 ≤ kv.2)
  | [], st, stf, _, hupd, h => by
    obtain rfl := Except.ok.inj h
    exact ⟨fun r _ => rfl, hupd⟩
  | e :: l, st, stf, hl, hupd, h => by
    rw [List.foldlM_cons] at h
    obtain ⟨st1, h1, h2⟩ := except_bind_ok h
    obtain ⟨hs1, hu1⟩ :=
      processEntryH_frame (hl e (List.mem_cons_self e l)) hupd h1
    obtain ⟨hs2, hu2⟩ := foldlMH_frame l st1 stf
      (fun kv hkv => hl kv (List.mem_cons_of_mem e hkv)) hu1 h2
    exact ⟨fun r hr => (hs2 r hr).trans (hs1 r hr), hu2⟩

theorem roundH_frame {table : WinProbTable} {randFn : ℕ → ℚ} {n0 : ℕ}
    {store : Store} {current : RefDict} {pts : Points} {idx : ℕ}
    {store' : Store} {d' : RefDict} {pts' : Points} {idx' : ℕ}
    (hcur : ∀ kv ∈ current, n0 ≤ kv.2)
    (hok : simulate_round_H table randFn store current pts idx
      = .ok (store', d', pts', idx')) :
    (∀ r, r < n0 → storeGet store' r = storeGet store r) ∧
    (∀ kv ∈ d', n0 ≤ kv.2) := by
  rw [simulate_round_H] at hok
  obtain ⟨stf, hfold, hmap⟩ := except_map_ok hok
  obtain ⟨hs, hu⟩ := foldlMH_frame current ⟨store, [], [], pts, none, idx⟩ stf
    hcur (by simp) hfold
  injection hmap with hm1 hmrest
  injection hmrest with hm2 hmrest2
  injection hmrest2 with hm3 hm4
  subst hm1
  subst hm2
  exact ⟨hs, hu⟩

theorem simulateRoundsH_frame {table : WinProbTable} {randFn : ℕ → ℚ} {n0 : ℕ} :
    ∀ (n : ℕ) (store : Store) (d : RefDict) (pts : Points) (idx : ℕ)
      {store' : Store} {d' : RefDict} {pts' : Points} {idx' : ℕ},
      (∀ kv ∈ d, n0 ≤ kv.2) →
      simulateRoundsH table randFn n store d pts idx
        = .ok (store', d', pts', idx') →
      ∀ r, r < n0 → storeGet store' r = storeGet store r
  | 0, store, d, pts, idx, store', d', pts', idx', _, h => by
    injection h with hA
    injection hA with h1 hrest
    subst h1
    exact fun r _ => rfl
  | n + 1, store, d, pts, idx, store', d', pts', idx', hd, h => by
    rw [simulateRoundsH] at h
    obtain ⟨m, hm, hrest⟩ := except_bind_ok h
    obtain ⟨ms, md, mpts, midx⟩ := m
    obtain ⟨hs, hu⟩ := roundH_frame hd hm
    have := simulateRoundsH_frame n ms md mpts midx hu hrest
    exact fun r hr => (this r hr).trans (hs r hr)

/-- C10: running a full simulation in the heap model leaves every list object
that existed in the caller's store before construction — in particular every
list of the caller-supplied seed-path schedule — unchanged: the simulator
deep-copies the schedule into fresh store cells at construction and the
per-round pop writes only through references to those copies; the
win-probability table is only ever read. -/
theorem simulate_preserves_caller_store {table : WinProbTable} {randFn : ℕ → ℚ}
    {store : Store} {d : RefDict} {store' : Store} {d' : RefDict}
    {pts' : Points} {idx' : ℕ}
    (hok : simulate_region_tournament_H table randFn store d
      = .ok (store', d', pts', idx')) :
    ∀ r, r < store.length → storeGet store' r = storeGet store r := by
  intro r hr
  rw [simulate_region_tournament_H] at hok
  obtain ⟨hlen, hpre, hrefs⟩ := deepcopy_fold_invariant store d (store, [])
    (le_refl _) (fun _ _ => rfl) (by simp)
  have hframe := simulateRoundsH_frame 4 (deepcopyDict store d).1
    (deepcopyDict store d).2 initial_points_by_seed 0 hrefs hok r hr
  rw [hframe]
  exact hpre r hr

/-- Witness for C10: a full favorites run in the heap model succeeds and
leaves the caller's first schedule list (store cell 0) unchanged. -/
theorem simulate_preserves_caller_store_witness :
    ∃ res : Store × RefDict × Points × ℕ,
      simulate_region_tournament_H favoritesTable (fun _ => 1/2) callerStore
        callerScheduleDict = .ok res ∧
      storeGet res.1 0 = storeGet callerStore 0 := by
  have hok : ∃ res : Store × RefDict × Points × ℕ,
      simulate_region_tournament_H favoritesTable (fun _ => 1/2) callerStore
        callerScheduleDict = .ok res := ⟨_, by with_unfolding_all rfl⟩
  obtain ⟨res, h⟩ := hok
  exact ⟨res, h, simulate_preserves_caller_store h 0 (by decide)⟩

end RunYourPool
